import Mathlib

/-!
Verification of `tools/inspect_links.py` (this-week-in-rust link hygiene
checker).

Python strings are modelled as byte strings (`List Nat`, each entry < 256);
this matches CPython's `urllib.parse` behaviour on ASCII input, which is the
character repertoire of all data handled by the tool (`quote`/`unquote`
operate on the UTF-8 bytes of a `str`; for invalid percent-sequences we keep
the raw byte, i.e. the `encoding='latin-1'` reading of `unquote`, instead of
modelling the U+FFFD replacement decoding).  `urllib.parse` is embedded
following the CPython 3.9 series sources (no separator besides `&` in
`parse_qs`, no control-character stripping in `urlsplit`).

Mutable global state (the `Warnings` singleton) is modelled by explicit
warning lists returned from each operation, concatenated in program order.
Warnings are modelled as a structured type carrying exactly the data
interpolated into the corresponding f-strings.
-/

set_option autoImplicit false

namespace InspectLinks

/-- Python `str`, modelled as a byte string. -/
abbrev PyStr := List Nat

/-- Embed an ASCII Lean string literal as a byte string. -/
def pys (s : String) : PyStr := s.data.map Char.toNat

/-- Wellformedness of a byte string: every entry is an actual byte. -/
def isBytes (s : PyStr) : Prop := ∀ b ∈ s, b < 256

instance (s : PyStr) : Decidable (isBytes s) := by
  unfold isBytes; infer_instance

/-! ### Byte classification helpers -/

/-- ASCII decimal digit. -/
def isDigit (c : Nat) : Bool := decide (48 ≤ c ∧ c ≤ 57)

/-- ASCII letter. -/
def isAlpha (c : Nat) : Bool := decide ((65 ≤ c ∧ c ≤ 90) ∨ (97 ≤ c ∧ c ≤ 122))

/-- Characters allowed in a URL scheme (`urllib.parse.scheme_chars`):
letters, digits and `+-.`. -/
def isSchemeChar (c : Nat) : Bool := isAlpha c || isDigit c || decide (c = 43 ∨ c = 45 ∨ c = 46)

/-- ASCII lowercasing of one byte (`str.lower`, ASCII fragment). -/
def lowerByte (c : Nat) : Nat := if 65 ≤ c ∧ c ≤ 90 then c + 32 else c

/-- ASCII lowercasing of a byte string. -/
def lowerStr (s : PyStr) : PyStr := s.map lowerByte

/-- Value of an ASCII hex digit, if it is one. -/
def hexVal? (c : Nat) : Option Nat :=
  if 48 ≤ c ∧ c ≤ 57 then some (c - 48)
  else if 65 ≤ c ∧ c ≤ 70 then some (c - 55)
  else if 97 ≤ c ∧ c ≤ 102 then some (c - 87)
  else none

/-- Uppercase hex digit for a value below 16 (as used by `urllib.parse.quote`). -/
def hexUpper (n : Nat) : Nat := if n < 10 then 48 + n else 55 + n

/-- Bytes that `urllib.parse.quote` never escapes
(`_ALWAYS_SAFE`: letters, digits and `_.-~`). -/
def isSafeByte (c : Nat) : Bool :=
  isAlpha c || isDigit c || decide (c = 95 ∨ c = 46 ∨ c = 45 ∨ c = 126)

/-! ### Generic list splitting utilities

These model the Python string primitives `find`/`split`/`partition` used by
`urllib.parse`. -/

/-- Split at the first occurrence of `sep`: `some (before, after)` with the
separator removed, or `none` when `sep` does not occur. -/
def breakAt (sep : Nat) : PyStr → Option (PyStr × PyStr)
  | [] => none
  | c :: rest =>
    if c = sep then some ([], rest)
    else
      match breakAt sep rest with
      | some (a, b) => some (c :: a, b)
      | none => none

/-- Python `s.split(sep, 1)` as used in the pattern
`if sep in s: a, b = s.split(sep, 1)`: when `sep` is absent the whole string
stays in the first component. -/
def pySplit1 (s : PyStr) (sep : Nat) : PyStr × PyStr :=
  match breakAt sep s with
  | some p => p
  | none => (s, [])

/-- Python `s.split(sep)` (keeping empty chunks; `''.split(sep) = ['']`). -/
def splitOn (sep : Nat) : PyStr → List PyStr
  | [] => [[]]
  | c :: rest =>
    let r := splitOn sep rest
    if c = sep then [] :: r
    else
      match r with
      | h :: t => (c :: h) :: t
      | [] => [[c]]

/-- Python `sep.join(parts)` for a one-byte separator. -/
def joinSep (sep : Nat) : List PyStr → PyStr
  | [] => []
  | [p] => p
  | p :: q :: ps => p ++ sep :: joinSep sep (q :: ps)

/-! ### Percent-encoding (`urllib.parse.quote_plus` / `unquote`) -/

/-- Encoding of a single byte by `quote` with `safe=''`. -/
def quoteByte (c : Nat) : PyStr :=
  if isSafeByte c then [c] else [37, hexUpper (c / 16), hexUpper (c % 16)]

/-- `urllib.parse.quote_plus(s, safe='')`: spaces become `+`, safe bytes stay,
everything else is percent-encoded with uppercase hex. -/
def quotePlus (s : PyStr) : PyStr :=
  s.flatMap fun c => if c = 32 then [43] else quoteByte c

/-- `urllib.parse.unquote` at the byte level: `%XX` with two hex digits decodes
to the byte `XX`, a `%` not followed by two hex digits stays literal. -/
def unquote : PyStr → PyStr
  | [] => []
  | 37 :: h :: l :: rest =>
    (match hexVal? h, hexVal? l with
     | some hv, some lv => (16 * hv + lv) :: unquote rest
     | some _, none => 37 :: unquote (h :: l :: rest)
     | none, _ => 37 :: unquote (h :: l :: rest))
  | c :: rest => c :: unquote rest

/-- `urllib.parse.unquote_plus`: replace `+` by space, then percent-decode. -/
def unquotePlus (s : PyStr) : PyStr :=
  unquote (s.map fun c => if c = 43 then 32 else c)

/-! ### Query-string parsing and encoding -/

/-- The loop body of `parse_qsl` for one `name_value` chunk: skip empty
chunks, skip chunks without `=` (`strict_parsing=False`), skip pairs with an
empty value (`keep_blank_values=False`), then `+`-and-percent decode name and
value. -/
def qslPair? (nv : PyStr) : Option (PyStr × PyStr) :=
  if nv = [] then none
  else
    match breakAt 61 nv with
    | none => none
    | some (name, value) =>
      if value = [] then none
      else some (unquotePlus name, unquotePlus value)

/-- `urllib.parse.parse_qsl(qs)` with the default arguments used by
`parse_qs`: split on `&` and process each chunk. -/
def parse_qsl (qs : PyStr) : List (PyStr × PyStr) :=
  (splitOn 38 qs).filterMap qslPair?

/-- One step of `parse_qs`'s dict building: append the value to an existing
key's list, else insert the key at the end (CPython dicts preserve insertion
order). -/
def qsInsert (d : List (PyStr × List PyStr)) (k : PyStr) (v : PyStr) :
    List (PyStr × List PyStr) :=
  if d.any (fun p => p.1 = k) then
    d.map fun p => if p.1 = k then (p.1, p.2 ++ [v]) else p
  else d ++ [(k, [v])]

/-- `urllib.parse.parse_qs(qs)`: group the `parse_qsl` pairs by key, in
first-occurrence order, values in encounter order. -/
def parse_qs (qs : PyStr) : List (PyStr × List PyStr) :=
  (parse_qsl qs).foldl (fun d kv => qsInsert d kv.1 kv.2) []

/-- `urllib.parse.urlencode(d, doseq=True)`: one `quoted-key=quoted-value`
chunk per value, joined by `&`, in dict order. -/
def urlencode (d : List (PyStr × List PyStr)) : PyStr :=
  joinSep 38 (d.flatMap fun kv => kv.2.map fun v => quotePlus kv.1 ++ 61 :: quotePlus v)

/-! ### URL splitting and reassembly -/

/-- Result of `urllib.parse.urlsplit`. -/
structure SplitResult where
  scheme : PyStr
  netloc : PyStr
  path : PyStr
  query : PyStr
  fragment : PyStr

deriving instance DecidableEq for SplitResult

/-- Scheme parsing step of `urlsplit` (CPython 3.9): if the first `:` is at a
positive index and everything before it is made of scheme characters, the
lowercased prefix is the scheme and the rest continues; otherwise nothing is
split off. -/
def splitScheme (url : PyStr) : PyStr × PyStr :=
  match breakAt 58 url with
  | some (a, b) => if a ≠ [] ∧ a.all isSchemeChar then (lowerStr a, b) else ([], url)
  | none => ([], url)

/-- `urllib.parse._splitnetloc(url, 2)`: the netloc runs from index 2 up to
the first `/`, `?` or `#`; the remainder (including that delimiter) is kept. -/
def splitnetloc (url : PyStr) : PyStr × PyStr :=
  let rest2 := url.drop 2
  let netloc := rest2.takeWhile fun c => !(c == 47 || c == 63 || c == 35)
  (netloc, rest2.drop netloc.length)

/-- `urllib.parse.urlsplit(url)` (CPython 3.9; `none` models the
`ValueError("Invalid IPv6 URL")` raised on a lone bracket in the netloc). -/
def urlsplit (url : PyStr) : Option SplitResult :=
  let s := splitScheme url
  let url1 := s.2
  let n := if url1.take 2 = [47, 47] then splitnetloc url1 else ([], url1)
  let netloc := n.1
  if (91 ∈ netloc ∧ ¬ 93 ∈ netloc) ∨ (93 ∈ netloc ∧ ¬ 91 ∈ netloc) then none
  else
    let f := pySplit1 n.2 35
    let q := pySplit1 f.1 63
    some ⟨s.1, netloc, q.1, q.2, f.2⟩

/-- `urllib.parse.urlunsplit(components)` (CPython 3.9). -/
def urlunsplit (p : SplitResult) : PyStr :=
  let url := p.path
  let url :=
    if p.netloc ≠ [] ∨ (url ≠ [] ∧ url.take 2 = [47, 47]) then
      [47, 47] ++ p.netloc ++ (if url ≠ [] ∧ url.take 1 ≠ [47] then 47 :: url else url)
    else url
  let url := if p.scheme ≠ [] then p.scheme ++ 58 :: url else url
  let url := if p.query ≠ [] then url ++ 63 :: p.query else url
  let url := if p.fragment ≠ [] then url ++ 35 :: p.fragment else url
  url

/-- `posixpath.join(a, b)` (used as `os.path.join(dir, f)`). -/
def posixJoin (a b : PyStr) : PyStr :=
  if b.take 1 = [47] then b
  else if a = [] ∨ a.getLast? = some 47 then a ++ b
  else a ++ 47 :: b

/-! ### Warnings

The `Warnings` singleton is an append-only list of strings; we model each
`warnings.warn(f'...')` call as a structured value carrying exactly the data
interpolated into the f-string, and render it to a byte string with
`renderWarning` below. -/

/-- One entry of the `Warnings` singleton, one constructor per `warn` call
site in the source. -/
inductive Warning where
  | possiblyMalformedLink (link : PyStr)
  | foundTrackingParameters (url : PyStr) (found : List PyStr)
  | linkCanBeSimplified (link reconstituted : PyStr)
  | possibleDuplicateLink (link file collision : PyStr)

deriving instance DecidableEq for Warning

/-- Join with a multi-byte separator (Python `sep.join`). -/
def joinSepStr (sep : PyStr) : List PyStr → PyStr
  | [] => []
  | [p] => p
  | p :: q :: ps => p ++ sep ++ joinSepStr sep (q :: ps)

/-- Python `repr` of a list of (quote-free ASCII) strings, as interpolated by
an f-string: `['a', 'b']`. -/
def pyReprStrList (l : List PyStr) : PyStr :=
  91 :: joinSepStr (pys ", ") (l.map fun s => 39 :: s ++ [39]) ++ [93]

/-- Rendering of a warning to the exact string passed to `warnings.warn`. -/
def renderWarning : Warning → PyStr
  | .possiblyMalformedLink link => pys "possibly malformed link: " ++ link
  | .foundTrackingParameters url found =>
    pys "found tracking parameters on " ++ url ++ pys ": " ++ pyReprStrList found
  | .linkCanBeSimplified link recon =>
    pys "link can be simplified: " ++ link ++ pys " -> " ++ recon
  | .possibleDuplicateLink link file collision =>
    pys "possible duplicate link " ++ link ++ pys " in file " ++ file ++
      pys " (also found in " ++ collision

/-! ### The inspect_links core -/

/-- `TRACKING_PARAMETERS` (a set; only membership is used). -/
def TRACKING_PARAMETERS : List PyStr :=
  [pys "utm_source", pys "utm_campaign", pys "utm_medium", pys "utm_content"]

/-- `STRICT_TITLES`. -/
def STRICT_TITLES : List PyStr :=
  [pys "project/tooling updates", pys "observations/thoughts",
   pys "rust walkthroughs", pys "miscellaneous"]

/-- `is_strict_title(title)`: lowercased exact membership in `STRICT_TITLES`. -/
def is_strict_title (title : PyStr) : Bool := decide (lowerStr title ∈ STRICT_TITLES)

/-- `scrub_parameters(url, query)`: drop tracking parameters, warn if any were
found, re-encode what remains (empty string when nothing remains).  The single
pass over `query_dict.items()` building `found_tracking` and `filtered_dict`
is rendered as two order-preserving filters. -/
def scrub_parameters (url query : PyStr) : PyStr × List Warning :=
  let query_dict := parse_qs query
  let found_tracking := (query_dict.filter fun kv => kv.1 ∈ TRACKING_PARAMETERS).map (·.1)
  let filtered_dict := query_dict.filter fun kv => kv.1 ∉ TRACKING_PARAMETERS
  let ws := if found_tracking ≠ [] then [Warning.foundTrackingParameters url found_tracking] else []
  if filtered_dict = [] then ([], ws) else (urlencode filtered_dict, ws)

/-- `parse_url(link)`: split, warn on unrecognized scheme, scrub a nonempty
query, reassemble, warn when the reassembly differs textually.  `none` models
the propagated `ValueError` of `urlsplit`.  The returned warning list is in
emission order. -/
def parse_url (link : PyStr) : Option (PyStr × List Warning) :=
  match urlsplit link with
  | none => none
  | some p =>
    let w1 := if p.scheme = pys "mailto" ∨ p.scheme = pys "http" ∨ p.scheme = pys "https"
      then [] else [Warning.possiblyMalformedLink link]
    let qw := if p.query ≠ [] then scrub_parameters link p.query else (p.query, [])
    let reconstituted := urlunsplit ⟨p.scheme, p.netloc, p.path, qw.1, p.fragment⟩
    let w3 := if reconstituted ≠ link then [Warning.linkCanBeSimplified link reconstituted] else []
    some (reconstituted, w1 ++ qw.2 ++ w3)

/-- One heading or anchor element of the rendered HTML, as surfaced by
BeautifulSoup: `a`-tags with their `href` target (always present on
markdown-generated links), `h`-tags with their level and string content
(already coerced by `str(...)`). -/
inductive Element where
  | a (href : PyStr)
  | h (level : Nat) (text : PyStr)

deriving instance DecidableEq for Element

/-- The tag filter of `soup.find_all(['a', 'h1', 'h2', 'h3', 'h4'])`. -/
def wantedTag : Element → Bool
  | .a _ => true
  | .h level _ => decide (level = 1 ∨ level = 2 ∨ level = 3 ∨ level = 4)

/-- The loop body of `extract_links`: a single `strict_mode` flag, headings
reassign it, anchors in strict mode are normalized and collected. -/
def extractLoop (strict : Bool) : List Element → Option (List PyStr × List Warning)
  | [] => some ([], [])
  | .a href :: rest =>
    if strict then
      match parse_url href with
      | none => none
      | some (u, ws) =>
        match extractLoop strict rest with
        | none => none
        | some (us, ws') => some (u :: us, ws ++ ws')
    else extractLoop strict rest
  | .h _ text :: rest => extractLoop (is_strict_title text) rest

/-- `extract_links(html)`, over the element stream of the document:
`find_all` keeps only `a`/`h1`–`h4` tags, then the strict-section state
machine collects normalized links. -/
def extract_links (doc : List Element) : Option (List PyStr × List Warning) :=
  extractLoop false (doc.filter wantedTag)

/-! ### File selection (`get_recent_files`) -/

/-- One position of the regex `RE_FILENAME = r'\d\d\d\d-\d\d-\d\d-this-week-in-rust.md'`. -/
inductive Pat where
  | digit
  | lit (c : Nat)
  | anyChar

/-- Whether one byte matches one regex position (`.` matches anything except a
newline). -/
def matchPatByte : Pat → Nat → Bool
  | .digit, c => isDigit c
  | .lit d, c => decide (c = d)
  | .anyChar, c => decide (c ≠ 10)

/-- The compiled `RE_FILENAME` pattern. -/
def filenamePat : List Pat :=
  [.digit, .digit, .digit, .digit, .lit 45, .digit, .digit, .lit 45, .digit, .digit] ++
    (pys "-this-week-in-rust").map .lit ++ [.anyChar] ++ (pys "md").map .lit

/-- Anchored-at-start, unanchored-at-end matching, as `re.Pattern.match`
does. -/
def matchPats : List Pat → PyStr → Bool
  | [], _ => true
  | _ :: _, [] => false
  | p :: ps, c :: cs => matchPatByte p c && matchPats ps cs

/-- `RE_FILENAME.match(s)` as a Boolean. -/
def matchesFilename (s : PyStr) : Bool := matchPats filenamePat s

/-- Lexicographic comparison of byte strings (Python `str` comparison; UTF-8
byte order agrees with code-point order). -/
def pyStrLe : PyStr → PyStr → Bool
  | [], _ => true
  | _ :: _, [] => false
  | a :: as, b :: bs => if a < b then true else if b < a then false else pyStrLe as bs

/-- Stable insertion into a sorted list (used to model `list.sort()`). -/
def insertSorted (x : PyStr) : List PyStr → List PyStr
  | [] => [x]
  | y :: ys => if pyStrLe x y then x :: y :: ys else y :: insertSorted x ys

/-- `listing.sort()` for a list of strings. -/
def sortPyStr (l : List PyStr) : List PyStr := l.foldr insertSorted []

/-- Python `l[start:]` with an arbitrary (possibly negative) start. -/
def pySliceFrom (l : List PyStr) (start : Int) : List PyStr :=
  if start < 0 then l.drop (l.length - (-start).toNat) else l.drop start.toNat

/-- `get_recent_files(dir, count)`, with the `os.listdir` result passed in as
`listing`; `Except.error` models the raised `Exception`. -/
def get_recent_files (dir : PyStr) (listing : List PyStr) (count : Int) :
    Except PyStr (List PyStr) :=
  if listing = [] then .error (pys "No files found in " ++ dir)
  else
    let filtered := listing.filter matchesFilename
    if filtered = [] then .error (pys "No matching files found in " ++ dir)
    else
      let sorted := sortPyStr filtered
      let recent := pySliceFrom sorted (-count)
      .ok (recent.map (posixJoin dir))

/-! ### Cross-file duplicate tracking (`inspect_files`) -/

/-- `linkset.get(link)` for the insertion-ordered dict. -/
def dictGet (d : List (PyStr × PyStr)) (k : PyStr) : Option PyStr :=
  (d.find? fun p => p.1 = k).map (·.2)

/-- `linkset[link] = file` for the insertion-ordered dict. -/
def dictSet (d : List (PyStr × PyStr)) (k v : PyStr) : List (PyStr × PyStr) :=
  if d.any (fun p => p.1 = k) then d.map fun p => if p.1 = k then (k, v) else p
  else d ++ [(k, v)]

/-- The inner loop of `inspect_files` for one file: `if collision:` is the
Python truthiness test, false for a missing entry and for an empty string. -/
def inspectLinks (file : PyStr) : List PyStr → List (PyStr × PyStr) →
    List (PyStr × PyStr) × List Warning
  | [], linkset => (linkset, [])
  | link :: rest, linkset =>
    match dictGet linkset link with
    | some c =>
      if c ≠ [] then
        let r := inspectLinks file rest linkset
        (r.1, Warning.possibleDuplicateLink link file c :: r.2)
      else inspectLinks file rest (dictSet linkset link file)
    | none => inspectLinks file rest (dictSet linkset link file)

/-- The outer loop of `inspect_files`, threading the `linkset` dict; each
file is given with the link list `inspect_file` extracts from it (the
markdown/IO half of `inspect_file` is an external collaborator). -/
def inspectFilesLoop : List (PyStr × List PyStr) → List (PyStr × PyStr) →
    List (PyStr × PyStr) × List Warning
  | [], linkset => (linkset, [])
  | (file, links) :: rest, linkset =>
    let r := inspectLinks file links linkset
    let r' := inspectFilesLoop rest r.1
    (r'.1, r.2 ++ r'.2)

/-- `inspect_files(file_list)`: the duplicate warnings recorded, in order. -/
def inspect_files (files : List (PyStr × List PyStr)) : List Warning :=
  (inspectFilesLoop files []).2

/-- Whether a warning is a duplicate-link warning about `l`. -/
def mentionsDup (l : PyStr) : Warning → Bool
  | .possibleDuplicateLink l' _ _ => decide (l' = l)
  | _ => false

/-- The spec's description of file selection: the `N` lexicographically-last
filenames matching the pattern (all of them when fewer match), in sorted
order, each joined with the directory. -/
def recentFilesSpec (dir : PyStr) (listing : List PyStr) (n : Nat) : List PyStr :=
  ((sortPyStr (listing.filter matchesFilename)).drop
    ((sortPyStr (listing.filter matchesFilename)).length - n)).map (posixJoin dir)

/-! ### main and the process exit contract -/

/-- The body of `main()` after argument parsing, with the directory listing
and the per-file extracted links (`env`) supplied by the outside world.  The
second component is the `Warnings` singleton state at the end (or at the
uncaught exception). -/
def mainRun (dir : PyStr) (listing : List PyStr) (count : Int)
    (env : PyStr → List PyStr) : Except PyStr Unit × List Warning :=
  match get_recent_files dir listing count with
  | .error e => (.error e, [])
  | .ok files => (.ok (), inspect_files (files.map fun f => (f, env f)))

/-- Exit code and printed lines of the `__main__` epilogue. -/
structure ExitBehavior where
  code : Nat
  lines : List PyStr

deriving instance DecidableEq for ExitBehavior

/-- The `if warns: ... sys.exit(1) else: ...` epilogue of the script. -/
def finalReport (warns : List Warning) : ExitBehavior :=
  if warns = [] then ⟨0, [pys "everything is ok!"]⟩
  else ⟨1, pys "warnings exist:" :: warns.map renderWarning⟩

/-- Outcome of the whole process: `abnormal` is an uncaught exception (no
normal exit), `normal` carries the epilogue's exit behaviour. -/
inductive ProcessOutcome where
  | abnormal (msg : PyStr)
  | normal (behavior : ExitBehavior)

deriving instance DecidableEq for ProcessOutcome

/-- The whole `__main__` run. -/
def runProcess (dir : PyStr) (listing : List PyStr) (count : Int)
    (env : PyStr → List PyStr) : ProcessOutcome :=
  match mainRun dir listing count env with
  | (.error e, _) => .abnormal e
  | (.ok _, warns) => .normal (finalReport warns)

/-! ## Lemmas about the splitting utilities -/

theorem breakAt_of_not_mem {sep : Nat} {s : PyStr} (h : sep ∉ s) :
    breakAt sep s = none := by
  induction s with
  | nil => rfl
  | cons c rest ih =>
    simp only [List.mem_cons, not_or] at h
    simp [breakAt, Ne.symm h.1, ih h.2]

theorem breakAt_some_spec {sep : Nat} {s a b : PyStr}
    (h : breakAt sep s = some (a, b)) : s = a ++ sep :: b ∧ sep ∉ a := by
  induction s generalizing a b with
  | nil => simp [breakAt] at h
  | cons c rest ih =>
    by_cases hc : c = sep
    · subst hc
      simp [breakAt] at h
      obtain ⟨h1, h2⟩ := h
      subst h1 h2
      simp
    · simp only [breakAt, if_neg hc] at h
      match hrec : breakAt sep rest with
      | none => rw [hrec] at h; simp at h
      | some (a', b') =>
        rw [hrec] at h
        simp at h
        obtain ⟨ha, hb⟩ := h
        obtain ⟨h1, h2⟩ := ih hrec
        subst ha hb
        simp [h1, h2, Ne.symm hc]

theorem breakAt_append_left {sep : Nat} {a : PyStr} (t : PyStr) (h : sep ∉ a) :
    breakAt sep (a ++ t) = (breakAt sep t).map fun p => (a ++ p.1, p.2) := by
  induction a with
  | nil =>
    simp only [List.nil_append]
    cases hb : breakAt sep t with
    | none => simp
    | some p => simp
  | cons c rest ih =>
    simp only [List.mem_cons, not_or] at h
    have hrec := ih h.2
    cases hb : breakAt sep t with
    | none =>
      rw [hb] at hrec
      simp only [Option.map_none'] at hrec
      simp [breakAt, Ne.symm h.1, hrec]
    | some p =>
      obtain ⟨x, y⟩ := p
      rw [hb] at hrec
      simp only [Option.map_some'] at hrec
      simp [breakAt, Ne.symm h.1, hrec]

theorem breakAt_marker {sep : Nat} {a : PyStr} (b : PyStr) (h : sep ∉ a) :
    breakAt sep (a ++ sep :: b) = some (a, b) := by
  rw [breakAt_append_left _ h]
  simp [breakAt]

theorem pySplit1_of_not_mem {sep : Nat} {s : PyStr} (h : sep ∉ s) :
    pySplit1 s sep = (s, []) := by
  simp [pySplit1, breakAt_of_not_mem h]

theorem pySplit1_marker {sep : Nat} {a : PyStr} (b : PyStr) (h : sep ∉ a) :
    pySplit1 (a ++ sep :: b) sep = (a, b) := by
  simp [pySplit1, breakAt_marker b h]

theorem splitOn_ne_nil (sep : Nat) (s : PyStr) : splitOn sep s ≠ [] := by
  induction s with
  | nil => simp [splitOn]
  | cons c rest ih =>
    simp only [splitOn]
    by_cases hc : c = sep
    · simp [hc]
    · simp only [if_neg hc]
      match h : splitOn sep rest with
      | [] => simp
      | x :: xs => simp

theorem splitOn_no_sep {sep : Nat} {p : PyStr} (h : sep ∉ p) :
    splitOn sep p = [p] := by
  induction p with
  | nil => rfl
  | cons c cs ih =>
    simp only [List.mem_cons, not_or] at h
    simp [splitOn, Ne.symm h.1, ih h.2]

theorem splitOn_append_marker {sep : Nat} {p : PyStr} (t : PyStr) (h : sep ∉ p) :
    splitOn sep (p ++ sep :: t) = p :: splitOn sep t := by
  induction p with
  | nil => simp [splitOn]
  | cons c cs ih =>
    simp only [List.mem_cons, not_or] at h
    have := ih h.2
    simp [splitOn, Ne.symm h.1, this]

theorem splitOn_joinSep {sep : Nat} {parts : List PyStr}
    (hne : parts ≠ []) (h : ∀ p ∈ parts, sep ∉ p) :
    splitOn sep (joinSep sep parts) = parts := by
  induction parts with
  | nil => exact absurd rfl hne
  | cons p rest ih =>
    match rest with
    | [] => exact splitOn_no_sep (h p (by simp))
    | q :: qs =>
      have hrest : splitOn sep (joinSep sep (q :: qs)) = q :: qs :=
        ih (by simp) (fun x hx => h x (List.mem_cons_of_mem _ hx))
      show splitOn sep (p ++ sep :: joinSep sep (q :: qs)) = p :: q :: qs
      rw [splitOn_append_marker _ (h p (by simp)), hrest]

theorem takeWhile_append_all {p : Nat → Bool} {a : PyStr} (b : PyStr)
    (h : ∀ x ∈ a, p x = true) :
    List.takeWhile p (a ++ b) = a ++ List.takeWhile p b := by
  induction a with
  | nil => simp
  | cons c rest ih =>
    simp only [List.cons_append, List.takeWhile_cons, h c (by simp)]
    simp [ih fun x hx => h x (List.mem_cons_of_mem _ hx)]

/-! ## Lemmas about percent-encoding -/

theorem hexUpper_digit {n : Nat} (h : n < 16) :
    (48 ≤ hexUpper n ∧ hexUpper n ≤ 57) ∨ (65 ≤ hexUpper n ∧ hexUpper n ≤ 70) := by
  unfold hexUpper
  by_cases h10 : n < 10
  · left; rw [if_pos h10]; omega
  · right; rw [if_neg h10]; omega

theorem hexVal?_hexUpper {n : Nat} (h : n < 16) : hexVal? (hexUpper n) = some n := by
  unfold hexVal? hexUpper
  by_cases h10 : n < 10
  · rw [if_pos h10, if_pos (by omega)]
    congr 1
    omega
  · rw [if_neg h10, if_neg (by omega), if_pos (by omega)]
    congr 1
    omega

theorem quotePlus_byte_range {c : Nat} {s : PyStr} (hb : isBytes s) (h : c ∈ quotePlus s) :
    c = 43 ∨ isSafeByte c = true ∨ c = 37 ∨
      (48 ≤ c ∧ c ≤ 57) ∨ (65 ≤ c ∧ c ≤ 70) := by
  induction s with
  | nil => simp [quotePlus] at h
  | cons d t ih =>
    have hd256 : d < 256 := hb d (by simp)
    simp only [quotePlus, List.flatMap_cons, List.mem_append] at h
    rcases h with h | h
    · by_cases hd : d = 32
      · simp [hd] at h; subst h; left; rfl
      · simp only [if_neg hd, quoteByte] at h
        by_cases hs : isSafeByte d = true
        · simp [hs] at h; subst h; right; left; exact hs
        · simp [hs] at h
          rcases h with h | h | h
          · subst h; right; right; left; rfl
          · subst h
            rcases hexUpper_digit (by omega : d / 16 < 16) with h' | h'
            · right; right; right; left; exact h'
            · right; right; right; right; exact h'
          · subst h
            rcases hexUpper_digit (by omega : d % 16 < 16) with h' | h'
            · right; right; right; left; exact h'
            · right; right; right; right; exact h'
    · exact ih (fun b hbt => hb b (List.mem_cons_of_mem _ hbt)) h

theorem not_mem_quotePlus {s : PyStr} (c : Nat) (hb : isBytes s)
    (hc : ¬(c = 43 ∨ isSafeByte c = true ∨ c = 37 ∨
      (48 ≤ c ∧ c ≤ 57) ∨ (65 ≤ c ∧ c ≤ 70))) : c ∉ quotePlus s :=
  fun h => hc (quotePlus_byte_range hb h)

theorem amp_not_mem_quotePlus {s : PyStr} (hb : isBytes s) : 38 ∉ quotePlus s :=
  not_mem_quotePlus 38 hb (by decide)

theorem eq_not_mem_quotePlus {s : PyStr} (hb : isBytes s) : 61 ∉ quotePlus s :=
  not_mem_quotePlus 61 hb (by decide)

theorem unquote_cons_ne {c : Nat} (rest : PyStr) (h : c ≠ 37) :
    unquote (c :: rest) = c :: unquote rest := by
  match rest with
  | [] => simp [unquote, h]
  | [x] => simp [unquote, h]
  | x :: y :: t => simp [unquote, h]

theorem unquote_percent {h l : Nat} (rest : PyStr) {hv lv : Nat}
    (hh : hexVal? h = some hv) (hl : hexVal? l = some lv) :
    unquote (37 :: h :: l :: rest) = (16 * hv + lv) :: unquote rest := by
  simp [unquote, hh, hl]

theorem unquote_plusmap_quotePlus {s : PyStr} (hb : isBytes s) :
    unquote ((quotePlus s).map fun c => if c = 43 then 32 else c) = s := by
  induction s with
  | nil => rfl
  | cons c t ih =>
    have hc : c < 256 := hb c (by simp)
    have iht := ih fun b h => hb b (List.mem_cons_of_mem _ h)
    rw [show quotePlus (c :: t) = (if c = 32 then [43] else quoteByte c) ++ quotePlus t from rfl,
      List.map_append]
    by_cases h32 : c = 32
    · subst h32
      rw [if_pos rfl, show List.map (fun c => if c = 43 then 32 else c) [43] = [32] by decide,
        List.singleton_append, unquote_cons_ne _ (by decide), iht]
    · rw [if_neg h32]
      unfold quoteByte
      by_cases hs : isSafeByte c = true
      · have hc43 : c ≠ 43 := by rintro rfl; exact absurd hs (by decide)
        have hc37 : c ≠ 37 := by rintro rfl; exact absurd hs (by decide)
        rw [if_pos hs, List.map_cons, List.map_nil, if_neg hc43, List.singleton_append,
          unquote_cons_ne _ hc37, iht]
      · have hdiv : c / 16 < 16 := by omega
        have hmod : c % 16 < 16 := by omega
        have hne43 : ∀ n : Nat, n < 16 → hexUpper n ≠ 43 := by
          intro n hn
          rcases hexUpper_digit hn with h' | h' <;> omega
        rw [if_neg hs, List.map_cons, List.map_cons, List.map_cons, List.map_nil,
          if_neg (by decide : ¬(37 : Nat) = 43), if_neg (hne43 _ hdiv), if_neg (hne43 _ hmod)]
        rw [show (37 : Nat) :: (hexUpper (c / 16) :: (hexUpper (c % 16) :: ([] : PyStr))) ++
            List.map (fun c => if c = 43 then 32 else c) (quotePlus t) =
            37 :: hexUpper (c / 16) :: hexUpper (c % 16) ::
            List.map (fun c => if c = 43 then 32 else c) (quotePlus t) from rfl]
        rw [unquote_percent _ (hexVal?_hexUpper hdiv) (hexVal?_hexUpper hmod), iht,
          Nat.div_add_mod c 16]

/-- Roundtrip: `unquote_plus` inverts `quote_plus` on byte strings. -/
theorem unquotePlus_quotePlus {s : PyStr} (hb : isBytes s) :
    unquotePlus (quotePlus s) = s :=
  unquote_plusmap_quotePlus hb

theorem quotePlus_ne_nil {s : PyStr} (h : s ≠ []) : quotePlus s ≠ [] := by
  match s with
  | [] => exact absurd rfl h
  | c :: t =>
    simp only [quotePlus, List.flatMap_cons]
    by_cases h32 : c = 32
    · simp [h32]
    · simp only [if_neg h32, quoteByte]
      by_cases hs : isSafeByte c = true
      · simp [hs]
      · simp [hs]

theorem mem_joinSep {c sep : Nat} {parts : List PyStr} (h : c ∈ joinSep sep parts) :
    c = sep ∨ ∃ p ∈ parts, c ∈ p := by
  induction parts with
  | nil => simp [joinSep] at h
  | cons p rest ih =>
    match rest with
    | [] =>
      right
      exact ⟨p, by simp, h⟩
    | q :: qs =>
      rw [show joinSep sep (p :: q :: qs) = p ++ sep :: joinSep sep (q :: qs) from rfl] at h
      rcases List.mem_append.mp h with h' | h'
      · right; exact ⟨p, by simp, h'⟩
      · rcases List.mem_cons.mp h' with h'' | h''
        · left; exact h''
        · rcases ih h'' with h3 | ⟨x, hx, hcx⟩
          · left; exact h3
          · right; exact ⟨x, List.mem_cons_of_mem _ hx, hcx⟩

/-- Wellformedness of the keys and values of a parsed query dict. -/
def qsDictBytes (d : List (PyStr × List PyStr)) : Prop :=
  ∀ kv ∈ d, isBytes kv.1 ∧ ∀ v ∈ kv.2, isBytes v

theorem urlencode_byte_range {c : Nat} {d : List (PyStr × List PyStr)}
    (hb : qsDictBytes d) (h : c ∈ urlencode d) :
    c = 38 ∨ c = 61 ∨ c = 43 ∨ isSafeByte c = true ∨ c = 37 ∨
      (48 ≤ c ∧ c ≤ 57) ∨ (65 ≤ c ∧ c ≤ 70) := by
  rcases mem_joinSep h with h' | ⟨p, hp, hcp⟩
  · left; exact h'
  · simp only [List.mem_flatMap] at hp
    obtain ⟨kv, hkv, hp2⟩ := hp
    simp only [List.mem_map] at hp2
    obtain ⟨v, hv, rfl⟩ := hp2
    rcases List.mem_append.mp hcp with h' | h'
    · rcases quotePlus_byte_range (hb kv hkv).1 h' with h'' | h'' | h'' | h'' | h'' <;> tauto
    · rcases List.mem_cons.mp h' with h'' | h''
      · right; left; exact h''
      · rcases quotePlus_byte_range ((hb kv hkv).2 v hv) h'' with h3 | h3 | h3 | h3 | h3 <;> tauto

theorem hash_not_mem_urlencode {d : List (PyStr × List PyStr)} (hb : qsDictBytes d) :
    35 ∉ urlencode d := by
  intro h
  rcases urlencode_byte_range hb h with h' | h' | h' | h' | h' | h' | h' <;>
    first | omega | (revert h'; decide)

/-! ## Wellformedness of parsed query dicts -/

theorem hexVal?_lt {c v : Nat} (h : hexVal? c = some v) : v < 16 := by
  unfold hexVal? at h
  split at h
  · simp at h; omega
  · split at h
    · simp at h; omega
    · split at h
      · simp at h; omega
      · simp at h

theorem unquote_percent_bad1 {h : Nat} (l : Nat) (t : PyStr) (hh : hexVal? h = none) :
    unquote (37 :: h :: l :: t) = 37 :: unquote (h :: l :: t) := by
  simp [unquote, hh]

theorem unquote_percent_bad2 {h l : Nat} (t : PyStr) {hv : Nat}
    (hh : hexVal? h = some hv) (hl : hexVal? l = none) :
    unquote (37 :: h :: l :: t) = 37 :: unquote (h :: l :: t) := by
  simp [unquote, hh, hl]

theorem unquote_isBytes : ∀ {s : PyStr}, isBytes s → isBytes (unquote s)
  | [], _ => by intro b hbm; simp [unquote] at hbm
  | 37 :: h :: l :: rest, hb => by
    have hbrest : isBytes (h :: l :: rest) := fun x hx => hb x (List.mem_cons_of_mem _ hx)
    have ih1 := unquote_isBytes (fun x hx => hbrest x
      (List.mem_cons_of_mem _ (List.mem_cons_of_mem _ hx)) : isBytes rest)
    have ih2 := unquote_isBytes hbrest
    intro b hbm
    rcases hh : hexVal? h with _ | hv
    · rw [unquote_percent_bad1 _ _ hh] at hbm
      rcases List.mem_cons.mp hbm with h' | h'
      · omega
      · exact ih2 b h'
    · rcases hl : hexVal? l with _ | lv
      · rw [unquote_percent_bad2 _ hh hl] at hbm
        rcases List.mem_cons.mp hbm with h' | h'
        · omega
        · exact ih2 b h'
      · rw [unquote_percent _ hh hl] at hbm
        rcases List.mem_cons.mp hbm with h' | h'
        · have := hexVal?_lt hh
          have := hexVal?_lt hl
          omega
        · exact ih1 b h'
  | c :: rest, hb => by
    have ih := unquote_isBytes (fun x hx => hb x (List.mem_cons_of_mem _ hx) : isBytes rest)
    intro b hbm
    by_cases hc : c = 37
    · subst hc
      match rest, hbm, ih with
      | [], hbm, _ =>
        rw [show unquote ([37] : PyStr) = [37] from rfl] at hbm
        rcases List.mem_cons.mp hbm with h' | h'
        · omega
        · simp at h'
      | [x], hbm, ih =>
        rw [show unquote (37 :: x :: ([] : PyStr)) = 37 :: unquote [x] from rfl] at hbm
        rcases List.mem_cons.mp hbm with h' | h'
        · omega
        · exact ih b h'
      | x :: y :: t, hbm, ih =>
        have ihxy := unquote_isBytes (fun v hv => hb v (List.mem_cons_of_mem _
          (List.mem_cons_of_mem _ (List.mem_cons_of_mem _ hv))) : isBytes t)
        rcases hh : hexVal? x with _ | hv
        · rw [unquote_percent_bad1 _ _ hh] at hbm
          rcases List.mem_cons.mp hbm with h' | h'
          · omega
          · exact ih b h'
        · rcases hl : hexVal? y with _ | lv
          · rw [unquote_percent_bad2 _ hh hl] at hbm
            rcases List.mem_cons.mp hbm with h' | h'
            · omega
            · exact ih b h'
          · rw [unquote_percent _ hh hl] at hbm
            rcases List.mem_cons.mp hbm with h' | h'
            · have := hexVal?_lt hh
              have := hexVal?_lt hl
              omega
            · exact ihxy b h'
    · rw [unquote_cons_ne _ hc] at hbm
      rcases List.mem_cons.mp hbm with h' | h'
      · subst h'
        exact hb b (by simp)
      · exact ih b h'

theorem unquotePlus_isBytes {s : PyStr} (hb : isBytes s) : isBytes (unquotePlus s) := by
  refine unquote_isBytes fun x hx => ?_
  simp only [List.mem_map] at hx
  obtain ⟨c, hc, rfl⟩ := hx
  by_cases h43 : c = 43
  · simp [h43]
  · simpa [h43] using hb c hc

theorem unquote_ne_nil {s : PyStr} (h : s ≠ []) : unquote s ≠ [] := by
  match s with
  | [] => exact absurd rfl h
  | c :: rest =>
    by_cases hc : c = 37
    · subst hc
      match rest with
      | [] => rw [show unquote ([37] : PyStr) = [37] from rfl]; simp
      | [x] => rw [show unquote (37 :: x :: ([] : PyStr)) = 37 :: unquote [x] from rfl]; simp
      | x :: y :: t =>
        rcases hh : hexVal? x with _ | hv
        · rw [unquote_percent_bad1 _ _ hh]; simp
        · rcases hl : hexVal? y with _ | lv
          · rw [unquote_percent_bad2 _ hh hl]; simp
          · rw [unquote_percent _ hh hl]; simp
    · rw [unquote_cons_ne _ hc]; simp

theorem unquotePlus_ne_nil {s : PyStr} (h : s ≠ []) : unquotePlus s ≠ [] := by
  refine unquote_ne_nil ?_
  simpa using h

/-- The multiset of `(key, value)` pairs a dict came from, in dict order. -/
def qsPairs (d : List (PyStr × List PyStr)) : List (PyStr × PyStr) :=
  d.flatMap fun kv => kv.2.map fun v => (kv.1, v)

/-- Structural invariant of `parse_qs` results: keys are distinct, every
value list is nonempty, every value is a nonempty string. -/
def qsDictOk (d : List (PyStr × List PyStr)) : Prop :=
  (d.map (·.1)).Nodup ∧ ∀ kv ∈ d, kv.2 ≠ [] ∧ ∀ v ∈ kv.2, v ≠ []

theorem mem_splitOn_mem {sep : Nat} {s p : PyStr} {x : Nat}
    (hp : p ∈ splitOn sep s) (hx : x ∈ p) : x ∈ s := by
  induction s generalizing p with
  | nil =>
    simp [splitOn] at hp
    subst hp
    simp at hx
  | cons c rest ih =>
    simp only [splitOn] at hp
    by_cases hc : c = sep
    · rw [if_pos hc] at hp
      rcases List.mem_cons.mp hp with h' | h'
      · subst h'; simp at hx
      · exact List.mem_cons_of_mem _ (ih h' hx)
    · rw [if_neg hc] at hp
      match hr : splitOn sep rest with
      | [] => exact absurd hr (splitOn_ne_nil sep rest)
      | q :: qs =>
        rw [hr] at hp
        rcases List.mem_cons.mp hp with h' | h'
        · subst h'
          rcases List.mem_cons.mp hx with h'' | h''
          · subst h''; simp
          · exact List.mem_cons_of_mem _ (ih (by rw [hr]; simp) h'')
        · exact List.mem_cons_of_mem _ (ih (by rw [hr]; exact List.mem_cons_of_mem _ h') hx)

theorem qslPair?_props {nv kv} (hb : isBytes nv) (h : qslPair? nv = some kv) :
    isBytes kv.1 ∧ isBytes kv.2 ∧ kv.2 ≠ [] := by
  unfold qslPair? at h
  split at h
  · simp at h
  · match hbr : breakAt 61 nv with
    | none => rw [hbr] at h; simp at h
    | some (name, value) =>
      rw [hbr] at h
      dsimp only at h
      obtain ⟨hnv, hsep⟩ := breakAt_some_spec hbr
      have hbn : isBytes name := fun b hbm => hb b (by rw [hnv]; simp [hbm])
      have hbv : isBytes value := fun b hbm => hb b (by rw [hnv]; simp [hbm])
      by_cases hvne : value = []
      · rw [if_pos hvne] at h
        exact Option.noConfusion h
      · rw [if_neg hvne] at h
        simp only [Option.some.injEq] at h
        subst h
        exact ⟨unquotePlus_isBytes hbn, unquotePlus_isBytes hbv, unquotePlus_ne_nil hvne⟩

theorem parse_qsl_props {qs : PyStr} (hb : isBytes qs) :
    ∀ kv ∈ parse_qsl qs, isBytes kv.1 ∧ isBytes kv.2 ∧ kv.2 ≠ [] := by
  intro kv hkv
  simp only [parse_qsl, List.mem_filterMap] at hkv
  obtain ⟨nv, hnv, hpair⟩ := hkv
  exact qslPair?_props (fun b hbm => hb b (mem_splitOn_mem hnv hbm)) hpair

theorem qsInsert_mem_keys {d : List (PyStr × List PyStr)} {k : PyStr} :
    (d.any fun p => p.1 = k) = true ↔ k ∈ d.map (·.1) := by
  rw [List.any_eq_true]
  simp only [List.mem_map, decide_eq_true_eq]

theorem qsInsert_keys_of_mem {d : List (PyStr × List PyStr)} {k : PyStr} (v : PyStr)
    (h : k ∈ d.map (·.1)) : (qsInsert d k v).map (·.1) = d.map (·.1) := by
  unfold qsInsert
  rw [if_pos (qsInsert_mem_keys.mpr h), List.map_map]
  refine List.map_congr_left fun p _ => ?_
  by_cases hp : p.1 = k
  · simp [hp]
  · simp [hp]

theorem qsInsert_of_not_mem {d : List (PyStr × List PyStr)} {k : PyStr} (v : PyStr)
    (h : k ∉ d.map (·.1)) : qsInsert d k v = d ++ [(k, [v])] := by
  unfold qsInsert
  rw [if_neg fun hc => h (qsInsert_mem_keys.mp hc)]

theorem qsInsert_wf {acc : List (PyStr × List PyStr)} {k v : PyStr}
    (hacc : qsDictOk acc) (hbacc : qsDictBytes acc)
    (hk : isBytes k) (hv : isBytes v) (hvne : v ≠ []) :
    qsDictOk (qsInsert acc k v) ∧ qsDictBytes (qsInsert acc k v) := by
  by_cases hmem : k ∈ acc.map (·.1)
  · have hkeys := qsInsert_keys_of_mem (d := acc) v hmem
    refine ⟨⟨hkeys ▸ hacc.1, ?_⟩, ?_⟩
    · intro kv hkv
      unfold qsInsert at hkv
      rw [if_pos (qsInsert_mem_keys.mpr hmem)] at hkv
      simp only [List.mem_map] at hkv
      obtain ⟨p, hp, rfl⟩ := hkv
      by_cases hpk : p.1 = k
      · rw [if_pos hpk]
        refine ⟨by simp, fun x hx => ?_⟩
        rcases List.mem_append.mp hx with h' | h'
        · exact (hacc.2 p hp).2 x h'
        · simp at h'; subst h'; exact hvne
      · rw [if_neg hpk]
        exact hacc.2 p hp
    · intro kv hkv
      unfold qsInsert at hkv
      rw [if_pos (qsInsert_mem_keys.mpr hmem)] at hkv
      simp only [List.mem_map] at hkv
      obtain ⟨p, hp, rfl⟩ := hkv
      by_cases hpk : p.1 = k
      · rw [if_pos hpk]
        refine ⟨(hbacc p hp).1, fun x hx => ?_⟩
        rcases List.mem_append.mp hx with h' | h'
        · exact (hbacc p hp).2 x h'
        · simp at h'; subst h'; exact hv
      · rw [if_neg hpk]
        exact hbacc p hp
  · rw [qsInsert_of_not_mem v hmem]
    refine ⟨⟨?_, ?_⟩, ?_⟩
    · rw [List.map_append]
      rw [List.nodup_append]
      exact ⟨hacc.1, List.nodup_singleton _, by
        intro x hx hx'
        simp at hx'
        subst hx'
        exact hmem hx⟩
    · intro kv hkv
      rcases List.mem_append.mp hkv with h' | h'
      · exact hacc.2 kv h'
      · simp at h'
        subst h'
        exact ⟨by simp, fun x hx => by simp at hx; subst hx; exact hvne⟩
    · intro kv hkv
      rcases List.mem_append.mp hkv with h' | h'
      · exact hbacc kv h'
      · simp at h'
        subst h'
        exact ⟨hk, fun x hx => by simp at hx; subst hx; exact hv⟩

theorem foldl_qsInsert_wf {l : List (PyStr × PyStr)}
    (hl : ∀ kv ∈ l, isBytes kv.1 ∧ isBytes kv.2 ∧ kv.2 ≠ []) :
    ∀ {acc}, qsDictOk acc → qsDictBytes acc →
    qsDictOk (l.foldl (fun d kv => qsInsert d kv.1 kv.2) acc) ∧
      qsDictBytes (l.foldl (fun d kv => qsInsert d kv.1 kv.2) acc) := by
  induction l with
  | nil => exact fun h1 h2 => ⟨h1, h2⟩
  | cons kv rest ih =>
    intro acc h1 h2
    obtain ⟨hk, hv, hvne⟩ := hl kv (by simp)
    obtain ⟨h1', h2'⟩ := qsInsert_wf h1 h2 hk hv hvne
    exact ih (fun x hx => hl x (List.mem_cons_of_mem _ hx)) h1' h2'

/-- Wellformedness of `parse_qs` on byte strings. -/
theorem parse_qs_wf {qs : PyStr} (hb : isBytes qs) :
    qsDictOk (parse_qs qs) ∧ qsDictBytes (parse_qs qs) :=
  foldl_qsInsert_wf (parse_qsl_props hb)
    (⟨List.nodup_nil, by simp⟩) (by intro kv h; simp at h)

/-! ## Output characterizations of the `urlsplit` building blocks -/

theorem lowerStr_nil_iff {s : PyStr} : lowerStr s = [] ↔ s = [] := by
  constructor
  · intro h
    match s with
    | [] => rfl
    | c :: t => simp [lowerStr] at h
  · rintro rfl; rfl

theorem lowerByte_idem (c : Nat) : lowerByte (lowerByte c) = lowerByte c := by
  unfold lowerByte
  by_cases h : 65 ≤ c ∧ c ≤ 90
  · rw [if_pos h, if_neg (by omega)]
  · rw [if_neg h, if_neg h]

theorem lowerStr_idem (s : PyStr) : lowerStr (lowerStr s) = lowerStr s := by
  unfold lowerStr
  rw [List.map_map]
  exact List.map_congr_left fun c _ => lowerByte_idem c

theorem lowerByte_schemeChar {c : Nat} (h : isSchemeChar c = true) :
    isSchemeChar (lowerByte c) = true := by
  unfold lowerByte
  by_cases hc : 65 ≤ c ∧ c ≤ 90
  · rw [if_pos hc]
    unfold isSchemeChar isAlpha
    simp only [Bool.or_eq_true, decide_eq_true_eq]
    left; left; omega
  · rw [if_neg hc]; exact h

theorem lowerStr_all_schemeChar {s : PyStr} (h : s.all isSchemeChar = true) :
    (lowerStr s).all isSchemeChar = true := by
  rw [List.all_eq_true] at h ⊢
  intro c hc
  simp only [lowerStr, List.mem_map] at hc
  obtain ⟨d, hd, rfl⟩ := hc
  exact lowerByte_schemeChar (h d hd)

theorem schemeChar_not_special {c : Nat} (h : isSchemeChar c = true) :
    c ≠ 58 ∧ c ≠ 47 ∧ c ≠ 63 ∧ c ≠ 35 := by
  refine ⟨?_, ?_, ?_, ?_⟩ <;> rintro rfl <;> exact absurd h (by decide)

theorem splitScheme_out {u sch rest : PyStr} (h : splitScheme u = (sch, rest)) :
    (sch = [] ∧ rest = u ∧
      ∀ a b, breakAt 58 u = some (a, b) → a = [] ∨ ¬ a.all isSchemeChar = true) ∨
    (∃ a, a ≠ [] ∧ a.all isSchemeChar = true ∧ sch = lowerStr a ∧ 58 ∉ a ∧
      u = a ++ 58 :: rest) := by
  unfold splitScheme at h
  match hbr : breakAt 58 u with
  | none =>
    rw [hbr] at h
    simp only [Prod.mk.injEq] at h
    left
    refine ⟨h.1.symm, h.2.symm, ?_⟩
    intro a b hab
    exact Option.noConfusion hab
  | some (a, b) =>
    rw [hbr] at h
    dsimp only at h
    obtain ⟨hu, hna⟩ := breakAt_some_spec hbr
    by_cases hcond : a ≠ [] ∧ a.all isSchemeChar = true
    · rw [if_pos hcond] at h
      simp only [Prod.mk.injEq] at h
      right
      exact ⟨a, hcond.1, hcond.2, h.1.symm, hna, h.2 ▸ hu⟩
    · rw [if_neg hcond] at h
      simp only [Prod.mk.injEq] at h
      left
      refine ⟨h.1.symm, h.2.symm, ?_⟩
      intro a' b' hab
      simp only [Option.some.injEq, Prod.mk.injEq] at hab
      obtain ⟨h1, h2⟩ := hab
      subst h1
      by_cases ha : a = []
      · left; exact ha
      · right
        intro hall
        exact hcond ⟨ha, hall⟩

theorem dropWhile_head_false {p : Nat → Bool} :
    ∀ {l : PyStr} {c : Nat} {t : PyStr}, l.dropWhile p = c :: t → p c = false := by
  intro l
  induction l with
  | nil => intro c t h; simp [List.dropWhile] at h
  | cons x xs ih =>
    intro c t h
    rw [List.dropWhile_cons] at h
    by_cases hx : p x = true
    · rw [if_pos hx] at h
      exact ih h
    · rw [if_neg hx] at h
      injection h with h1 h2
      subst h1
      simpa using hx

theorem drop_takeWhile_length (p : Nat → Bool) :
    ∀ l : PyStr, l.drop (l.takeWhile p).length = l.dropWhile p := by
  intro l
  induction l with
  | nil => rfl
  | cons c t ih =>
    rw [List.takeWhile_cons, List.dropWhile_cons]
    by_cases hc : p c = true
    · rw [if_pos hc, if_pos hc, List.length_cons, List.drop_succ_cons]
      exact ih
    · rw [if_neg hc, if_neg hc]
      rfl

theorem splitnetloc_out {url1 nl rest : PyStr} (h : splitnetloc url1 = (nl, rest)) :
    url1.drop 2 = nl ++ rest ∧ (∀ c ∈ nl, ¬(c = 47 ∨ c = 63 ∨ c = 35)) ∧
    (rest = [] ∨ ∃ c t, rest = c :: t ∧ (c = 47 ∨ c = 63 ∨ c = 35)) := by
  unfold splitnetloc at h
  simp only [Prod.mk.injEq] at h
  obtain ⟨hnl, hrest⟩ := h
  subst hnl
  rw [drop_takeWhile_length] at hrest
  subst hrest
  refine ⟨(List.takeWhile_append_dropWhile ..).symm, ?_, ?_⟩
  · intro c hc
    have := List.mem_takeWhile_imp hc
    simp only [Bool.not_eq_true', Bool.or_eq_false_iff, beq_eq_false_iff_ne, ne_eq] at this
    tauto
  · match hd : (url1.drop 2).dropWhile fun c => !(c == 47 || c == 63 || c == 35) with
    | [] => left; rfl
    | c :: t =>
      right
      refine ⟨c, t, rfl, ?_⟩
      have := dropWhile_head_false hd
      simp only [Bool.not_eq_false', Bool.or_eq_true, beq_iff_eq] at this
      tauto

theorem mem_breakAt_isSome {sep : Nat} {s : PyStr} (h : sep ∈ s) :
    ∃ a b, breakAt sep s = some (a, b) := by
  induction s with
  | nil => simp at h
  | cons c t ih =>
    by_cases hc : c = sep
    · exact ⟨[], t, by simp [breakAt, hc]⟩
    · have hm : sep ∈ t := by
        rcases List.mem_cons.mp h with h' | h'
        · exact absurd h'.symm hc
        · exact h'
      obtain ⟨a, b, hab⟩ := ih hm
      exact ⟨c :: a, b, by simp [breakAt, hc, hab]⟩

theorem not_mem_of_breakAt_none {sep : Nat} {s : PyStr} (h : breakAt sep s = none) :
    sep ∉ s := by
  intro hm
  obtain ⟨a, b, hab⟩ := mem_breakAt_isSome hm
  rw [h] at hab
  exact Option.noConfusion hab

theorem pySplit1_out {s a b : PyStr} {sep : Nat} (h : pySplit1 s sep = (a, b)) :
    sep ∉ a ∧ (s = a ++ sep :: b ∨ (s = a ∧ b = [])) := by
  unfold pySplit1 at h
  match hbr : breakAt sep s with
  | none =>
    rw [hbr] at h
    simp only [Prod.mk.injEq] at h
    obtain ⟨rfl, rfl⟩ := h
    exact ⟨not_mem_of_breakAt_none hbr, Or.inr ⟨rfl, rfl⟩⟩
  | some (x, y) =>
    rw [hbr] at h
    dsimp only at h
    simp only [Prod.mk.injEq] at h
    obtain ⟨rfl, rfl⟩ := h
    obtain ⟨hs, hna⟩ := breakAt_some_spec hbr
    exact ⟨hna, Or.inl hs⟩

/-- Inversion of a successful `urlsplit`. -/
theorem urlsplit_some {u : PyStr} {p : SplitResult} (h : urlsplit u = some p) :
    ∃ url1 url2 url3,
      splitScheme u = (p.scheme, url1) ∧
      ((url1.take 2 = [47, 47] ∧ splitnetloc url1 = (p.netloc, url2)) ∨
        (url1.take 2 ≠ [47, 47] ∧ p.netloc = [] ∧ url2 = url1)) ∧
      ¬((91 ∈ p.netloc ∧ ¬ 93 ∈ p.netloc) ∨ (93 ∈ p.netloc ∧ ¬ 91 ∈ p.netloc)) ∧
      pySplit1 url2 35 = (url3, p.fragment) ∧
      pySplit1 url3 63 = (p.path, p.query) := by
  unfold urlsplit at h
  rcases hs : splitScheme u with ⟨sch, url1⟩
  rw [hs] at h
  dsimp only at h
  by_cases htake : url1.take 2 = [47, 47]
  · rw [if_pos htake] at h
    rcases hn : splitnetloc url1 with ⟨nl, url2⟩
    rw [hn] at h
    dsimp only at h
    split at h
    · exact Option.noConfusion h
    · rename_i hbr
      rcases hf : pySplit1 url2 35 with ⟨url3, frag⟩
      rw [hf] at h
      rcases hq : pySplit1 url3 63 with ⟨path, query⟩
      rw [hq] at h
      simp only [Option.some.injEq] at h
      subst h
      exact ⟨url1, url2, url3, rfl, Or.inl ⟨htake, hn⟩, hbr, hf, hq⟩
  · rw [if_neg htake] at h
    dsimp only at h
    split at h
    · exact Option.noConfusion h
    · rename_i hbr
      rcases hf : pySplit1 url1 35 with ⟨url3, frag⟩
      rw [hf] at h
      rcases hq : pySplit1 url3 63 with ⟨path, query⟩
      rw [hq] at h
      simp only [Option.some.injEq] at h
      subst h
      exact ⟨url1, url1, url3, rfl, Or.inr ⟨htake, rfl, rfl⟩, hbr, hf, hq⟩

/-- Invariants of split components that make `urlsplit ∘ urlunsplit` the
identity; they hold of the components `parse_url` reassembles. -/
structure GoodSplit (p : SplitResult) : Prop where
  scheme_chars : p.scheme.all isSchemeChar = true
  scheme_lower : lowerStr p.scheme = p.scheme
  netloc_clean : ∀ c ∈ p.netloc, ¬(c = 47 ∨ c = 63 ∨ c = 35)
  netloc_brackets : ¬((91 ∈ p.netloc ∧ ¬ 93 ∈ p.netloc) ∨ (93 ∈ p.netloc ∧ ¬ 91 ∈ p.netloc))
  path_no_q : 63 ∉ p.path
  path_no_f : 35 ∉ p.path
  query_no_f : 35 ∉ p.query
  netloc_path_slash : (p.netloc ≠ [] ∨ (p.path ≠ [] ∧ p.path.take 2 = [47, 47])) →
    p.path = [] ∨ p.path.take 1 = [47]
  no_scheme_path : p.scheme = [] →
    ∀ a b, breakAt 58 p.path = some (a, b) → a = [] ∨ ¬ a.all isSchemeChar = true

theorem pySplit1_head {c : Nat} {t a b : PyStr} {sep : Nat}
    (h : pySplit1 (c :: t) sep = (a, b)) :
    (c = sep ∧ a = []) ∨ ∃ a', a = c :: a' := by
  unfold pySplit1 at h
  by_cases hc : c = sep
  · left
    rw [show breakAt sep (c :: t) = some ([], t) by simp [breakAt, hc]] at h
    dsimp only at h
    simp only [Prod.mk.injEq] at h
    exact ⟨hc, h.1.symm⟩
  · right
    rw [show (c : Nat) :: t = [c] ++ t from rfl,
      breakAt_append_left t (by simpa using Ne.symm hc)] at h
    match hbt : breakAt sep t with
    | none =>
      rw [hbt] at h
      simp only [Option.map_none'] at h
      simp only [Prod.mk.injEq] at h
      exact ⟨t, h.1.symm⟩
    | some (x, y) =>
      rw [hbt] at h
      simp only [Option.map_some'] at h
      simp only [Prod.mk.injEq, List.singleton_append] at h
      exact ⟨x, h.1.symm⟩

theorem take_two_eq {l : PyStr} {a b : Nat} (h : l.take 2 = [a, b]) :
    ∃ t, l = a :: b :: t := by
  match l with
  | [] => simp at h
  | [x] => simp at h
  | x :: y :: t =>
    simp only [List.take_succ_cons, List.take_zero] at h
    injection h with h1 h2
    injection h2 with h2 h3
    subst h1 h2
    exact ⟨t, rfl⟩

/-- The components a successful `urlsplit` yields, with any `#`-free string in
query position, satisfy the reassembly invariants. -/
theorem urlsplit_goodSplit {u : PyStr} {p : SplitResult} (h : urlsplit u = some p)
    {q : PyStr} (hq : 35 ∉ q) :
    GoodSplit ⟨p.scheme, p.netloc, p.path, q, p.fragment⟩ := by
  obtain ⟨url1, url2, url3, hs, hn, hbr, hf, hqs⟩ := urlsplit_some h
  obtain ⟨hf_na, hf_dec⟩ := pySplit1_out hf
  obtain ⟨hq_na, hq_dec⟩ := pySplit1_out hqs
  have hpath_sub3 : ∀ c ∈ p.path, c ∈ url3 := by
    intro c hc
    rcases hq_dec with h' | ⟨h', -⟩
    · rw [h']; exact List.mem_append.mpr (Or.inl hc)
    · rw [h']; exact hc
  have hpath35 : 35 ∉ p.path := fun hm => hf_na (hpath_sub3 _ hm)
  -- the path starts with a slash (or is empty) whenever the netloc branch ran
  have hbranch : url1.take 2 = [47, 47] → p.path = [] ∨ ∃ t, p.path = 47 :: t := by
    intro htake
    rcases hn with ⟨-, hnl⟩ | ⟨hcontra, -, -⟩
    · obtain ⟨-, -, hrest⟩ := splitnetloc_out hnl
      rcases hrest with hrest | ⟨c, t, hrest, hc⟩
      · -- url2 = [], so url3 = [] and the path is empty
        subst hrest
        rcases hf_dec with h' | ⟨h', -⟩
        · exact absurd h'.symm (by simp)
        · rcases hq_dec with h'' | ⟨h'', -⟩
          · rw [← h'] at h''
            exact absurd h''.symm (by simp)
          · left; rw [← h'', ← h']
      · -- url2 = c :: t with c ∈ {/, ?, #}
        subst hrest
        have hurl3 : url3 = [] ∨ ∃ t3, url3 = c :: t3 := by
          rcases hf_dec with h' | ⟨h', -⟩
          · match url3, h' with
            | [], h' => exact Or.inl rfl
            | d :: t3, h' =>
              injection h' with h1 h2
              subst h1
              exact Or.inr ⟨t3, rfl⟩
          · match url3, h' with
            | [], h' => exact absurd h' (by simp)
            | d :: t3, h' =>
              injection h' with h1 h2
              subst h1
              exact Or.inr ⟨t3, rfl⟩
        rcases hurl3 with hurl3 | ⟨t3, hurl3⟩
        · rw [hurl3] at hqs
          unfold pySplit1 at hqs
          rw [show breakAt 63 ([] : PyStr) = none from rfl] at hqs
          dsimp only at hqs
          simp only [Prod.mk.injEq] at hqs
          left; exact hqs.1.symm
        · rw [hurl3] at hqs
          rcases pySplit1_head hqs with ⟨hc63, hpathnil⟩ | ⟨a', hpa⟩
          · left; exact hpathnil
          · rcases hc with hc | hc | hc
            · subst hc
              right; exact ⟨a', hpa⟩
            · subst hc
              exact absurd (by rw [hpa]; simp : (63 : Nat) ∈ p.path) hq_na
            · subst hc
              exact absurd (by rw [hurl3]; simp : (35 : Nat) ∈ url3) hf_na
    · exact absurd htake hcontra
  have hscheme : p.scheme.all isSchemeChar = true ∧ lowerStr p.scheme = p.scheme := by
    rcases splitScheme_out hs with ⟨h1, -, -⟩ | ⟨a, -, hall, hlow, -, -⟩
    · rw [h1]; exact ⟨rfl, rfl⟩
    · rw [hlow]; exact ⟨lowerStr_all_schemeChar hall, lowerStr_idem a⟩
  refine ⟨hscheme.1, hscheme.2, ?_, hbr, hq_na, hpath35, hq, ?_, ?_⟩
  · -- netloc_clean
    intro c hc
    rcases hn with ⟨-, hnl⟩ | ⟨-, hnl_nil, -⟩
    · exact (splitnetloc_out hnl).2.1 c hc
    · rw [hnl_nil] at hc; simp at hc
  · -- netloc_path_slash
    intro hcond
    rcases hcond with hne | ⟨hpne, htake2⟩
    · rcases hn with ⟨htake, -⟩ | ⟨-, hnl_nil, -⟩
      · rcases hbranch htake with h' | ⟨t, h'⟩
        · left; exact h'
        · right; rw [h']; rfl
      · exact absurd hnl_nil hne
    · obtain ⟨t, ht⟩ := take_two_eq htake2
      right; rw [ht]; rfl
  · -- no_scheme_path
    intro hsch a b hab
    rcases splitScheme_out hs with ⟨-, hrest, hnos⟩ | ⟨a0, ha0ne, -, hlow, -, -⟩
    · rcases hn with ⟨htake, -⟩ | ⟨-, -, hurl2⟩
      · rcases hbranch htake with h' | ⟨t, h'⟩
        · rw [h'] at hab
          exact Option.noConfusion hab
        · rw [h'] at hab
          rw [show (47 : Nat) :: t = [47] ++ t from rfl,
            breakAt_append_left t (by decide)] at hab
          match hbt : breakAt 58 t with
          | none =>
            rw [hbt] at hab
            exact Option.noConfusion hab
          | some (x, y) =>
            rw [hbt] at hab
            simp only [Option.map_some', Option.some.injEq, Prod.mk.injEq,
              List.singleton_append] at hab
            right
            intro hall
            rw [List.all_eq_true] at hall
            exact absurd (hall 47 (by rw [← hab.1]; simp)) (by decide)
      · have hu3 : ∃ ft, url2 = url3 ++ ft := by
          rcases hf_dec with h2 | ⟨h2, -⟩
          · exact ⟨35 :: p.fragment, h2⟩
          · exact ⟨[], by rw [h2, List.append_nil]⟩
        have hu4 : ∃ qt, url3 = p.path ++ qt := by
          rcases hq_dec with h3 | ⟨h3, -⟩
          · exact ⟨63 :: p.query, h3⟩
          · exact ⟨[], by rw [h3, List.append_nil]⟩
        obtain ⟨ft, hu3⟩ := hu3
        obtain ⟨qt, hu4⟩ := hu4
        have hu : u = p.path ++ (qt ++ ft) := by
          rw [← hrest, ← hurl2, hu3, hu4, List.append_assoc]
        obtain ⟨hpdec, hna58⟩ := breakAt_some_spec hab
        have hbu : breakAt 58 u = some (a, b ++ (qt ++ ft)) := by
          rw [hu, hpdec, List.append_assoc]
          exact breakAt_marker _ hna58
        exact hnos a _ hbu
    · exact absurd hsch (by
        rw [hlow]
        exact fun hc => ha0ne (lowerStr_nil_iff.mp hc))


/-! ## `urlsplit` inverts `urlunsplit` on good components -/

theorem splitScheme_of_no_scheme {s : PyStr}
    (h : ∀ a b, breakAt 58 s = some (a, b) → a = [] ∨ ¬ a.all isSchemeChar = true) :
    splitScheme s = ([], s) := by
  unfold splitScheme
  match hbr : breakAt 58 s with
  | none => rfl
  | some (a, b) =>
    dsimp only
    rcases h a b hbr with ha | ha
    · rw [if_neg fun hc => hc.1 ha]
    · rw [if_neg fun hc => ha hc.2]

theorem breakAt_head_cons {c sep : Nat} {t a b : PyStr} (hc : c ≠ sep)
    (h : breakAt sep (c :: t) = some (a, b)) : ∃ a', a = c :: a' := by
  rw [show (c :: t : PyStr) = [c] ++ t from rfl,
    breakAt_append_left t (by simpa using Ne.symm hc)] at h
  match hbt : breakAt sep t with
  | none =>
    rw [hbt] at h
    exact Option.noConfusion h
  | some (x, y) =>
    rw [hbt] at h
    simp only [Option.map_some', Option.some.injEq, Prod.mk.injEq,
      List.singleton_append] at h
    exact ⟨x, h.1.symm⟩

theorem not_all_of_mem_bad (x : Nat) {a : PyStr} (hx : x ∈ a)
    (hbad : isSchemeChar x = false) : ¬ a.all isSchemeChar = true := by
  intro hall
  rw [List.all_eq_true] at hall
  rw [hall x hx] at hbad
  exact Bool.noConfusion hbad

theorem netlocPred_true {c : Nat} (h : ¬(c = 47 ∨ c = 63 ∨ c = 35)) :
    (!(c == 47 || c == 63 || c == 35)) = true := by
  push_neg at h
  simp only [Bool.not_eq_true', Bool.or_eq_false_iff, beq_eq_false_iff_ne, ne_eq]
  tauto

/-- Normal form of `urlunsplit` when the path-slash invariant holds (so the
`'/' + url` adjustment never fires). -/
theorem urlunsplit_eq (p : SplitResult)
    (hslash : (p.netloc ≠ [] ∨ (p.path ≠ [] ∧ p.path.take 2 = [47, 47])) →
      p.path = [] ∨ p.path.take 1 = [47]) :
    urlunsplit p =
      (if p.scheme ≠ [] then p.scheme ++ [58] else []) ++
      ((if p.netloc ≠ [] ∨ (p.path ≠ [] ∧ p.path.take 2 = [47, 47])
          then [47, 47] ++ p.netloc else []) ++
        (p.path ++
          ((if p.query ≠ [] then 63 :: p.query else []) ++
            (if p.fragment ≠ [] then 35 :: p.fragment else [])))) := by
  show (let url := p.path;
    let url :=
      if p.netloc ≠ [] ∨ (url ≠ [] ∧ url.take 2 = [47, 47]) then
        [47, 47] ++ p.netloc ++ (if url ≠ [] ∧ url.take 1 ≠ [47] then 47 :: url else url)
      else url;
    let url := if p.scheme ≠ [] then p.scheme ++ 58 :: url else url;
    let url := if p.query ≠ [] then url ++ 63 :: p.query else url;
    let url := if p.fragment ≠ [] then url ++ 35 :: p.fragment else url;
    url) = _
  dsimp only
  by_cases hb : p.netloc ≠ [] ∨ (p.path ≠ [] ∧ p.path.take 2 = [47, 47])
  · rw [if_pos hb, if_pos hb]
    have hadj : ¬(p.path ≠ [] ∧ p.path.take 1 ≠ [47]) := by
      rcases hslash hb with h' | h'
      · intro hc; exact hc.1 h'
      · intro hc; exact hc.2 h'
    rw [if_neg hadj]
    by_cases hs : p.scheme ≠ []
    · rw [if_pos hs, if_pos hs]
      by_cases hq : p.query ≠ []
      · rw [if_pos hq, if_pos hq]
        by_cases hf : p.fragment ≠ []
        · rw [if_pos hf, if_pos hf]; simp [List.append_assoc]
        · rw [if_neg hf, if_neg hf]; simp [List.append_assoc]
      · rw [if_neg hq, if_neg hq]
        by_cases hf : p.fragment ≠ []
        · rw [if_pos hf, if_pos hf]; simp [List.append_assoc]
        · rw [if_neg hf, if_neg hf]; simp [List.append_assoc]
    · rw [if_neg hs, if_neg hs]
      by_cases hq : p.query ≠ []
      · rw [if_pos hq, if_pos hq]
        by_cases hf : p.fragment ≠ []
        · rw [if_pos hf, if_pos hf]; simp [List.append_assoc]
        · rw [if_neg hf, if_neg hf]; simp [List.append_assoc]
      · rw [if_neg hq, if_neg hq]
        by_cases hf : p.fragment ≠ []
        · rw [if_pos hf, if_pos hf]; simp [List.append_assoc]
        · rw [if_neg hf, if_neg hf]; simp [List.append_assoc]
  · rw [if_neg hb, if_neg hb]
    by_cases hs : p.scheme ≠ []
    · rw [if_pos hs, if_pos hs]
      by_cases hq : p.query ≠ []
      · rw [if_pos hq, if_pos hq]
        by_cases hf : p.fragment ≠ []
        · rw [if_pos hf, if_pos hf]; simp [List.append_assoc]
        · rw [if_neg hf, if_neg hf]; simp [List.append_assoc]
      · rw [if_neg hq, if_neg hq]
        by_cases hf : p.fragment ≠ []
        · rw [if_pos hf, if_pos hf]; simp [List.append_assoc]
        · rw [if_neg hf, if_neg hf]; simp [List.append_assoc]
    · rw [if_neg hs, if_neg hs]
      by_cases hq : p.query ≠ []
      · rw [if_pos hq, if_pos hq]
        by_cases hf : p.fragment ≠ []
        · rw [if_pos hf, if_pos hf]; simp [List.append_assoc]
        · rw [if_neg hf, if_neg hf]; simp [List.append_assoc]
      · rw [if_neg hq, if_neg hq]
        by_cases hf : p.fragment ≠ []
        · rw [if_pos hf, if_pos hf]; simp [List.append_assoc]
        · rw [if_neg hf, if_neg hf]; simp [List.append_assoc]

theorem splitnetloc_def (url : PyStr) :
    splitnetloc url =
      ((url.drop 2).takeWhile (fun c => !(c == 47 || c == 63 || c == 35)),
        (url.drop 2).drop
          ((url.drop 2).takeWhile (fun c => !(c == 47 || c == 63 || c == 35))).length) := rfl

theorem take_one_eq {l : PyStr} {a : Nat} (h : l.take 1 = [a]) : ∃ t, l = a :: t := by
  match l with
  | [] => simp at h
  | x :: t =>
    simp only [List.take_succ_cons, List.take_zero] at h
    injection h with h1 h2
    subst h1
    exact ⟨t, rfl⟩

theorem splitScheme_scheme_part {sch rest : PyStr} (hne : sch ≠ [])
    (hall : sch.all isSchemeChar = true) (hlow : lowerStr sch = sch) :
    splitScheme (sch ++ 58 :: rest) = (sch, rest) := by
  have h58 : 58 ∉ sch := fun hm => absurd (List.all_eq_true.mp hall 58 hm) (by decide)
  unfold splitScheme
  rw [breakAt_marker rest h58]
  dsimp only
  rw [if_pos ⟨hne, hall⟩, hlow]

theorem splitScheme_slash_head (t : PyStr) : splitScheme (47 :: t) = ([], 47 :: t) := by
  refine splitScheme_of_no_scheme ?_
  intro a b hab
  obtain ⟨a', rfl⟩ := breakAt_head_cons (by decide) hab
  exact Or.inr (not_all_of_mem_bad 47 (by simp) (by decide))

theorem splitScheme_path_part {path X : PyStr}
    (hpath : ∀ a b, breakAt 58 path = some (a, b) → a = [] ∨ ¬ a.all isSchemeChar = true)
    (hX : X = [] ∨ ∃ m t, X = m :: t ∧ (m = 63 ∨ m = 35)) :
    splitScheme (path ++ X) = ([], path ++ X) := by
  refine splitScheme_of_no_scheme ?_
  intro a b hab
  by_cases hmem : 58 ∈ path
  · obtain ⟨pa, pb, hpb⟩ := mem_breakAt_isSome hmem
    obtain ⟨hdec, hna⟩ := breakAt_some_spec hpb
    rw [hdec, List.append_assoc, List.cons_append, breakAt_marker _ hna] at hab
    simp only [Option.some.injEq, Prod.mk.injEq] at hab
    rcases hpath pa pb hpb with h' | h'
    · left; rw [← hab.1]; exact h'
    · right; rw [← hab.1]; exact h'
  · rw [breakAt_append_left X hmem] at hab
    rcases hX with hXe | ⟨m, t, hXe, hm⟩
    · rw [hXe, show breakAt 58 ([] : PyStr) = none from rfl] at hab
      exact Option.noConfusion hab
    · rw [hXe] at hab
      match hbt : breakAt 58 (m :: t) with
      | none =>
        rw [hbt] at hab
        exact Option.noConfusion hab
      | some (x, y) =>
        have hm58 : m ≠ 58 := by rcases hm with rfl | rfl <;> decide
        have hmbad : isSchemeChar m = false := by rcases hm with rfl | rfl <;> decide
        obtain ⟨x', rfl⟩ := breakAt_head_cons hm58 hbt
        rw [hbt] at hab
        simp only [Option.map_some', Option.some.injEq, Prod.mk.injEq] at hab
        right
        rw [← hab.1]
        exact not_all_of_mem_bad m (by simp) hmbad

theorem splitnetloc_branch {nl R : PyStr}
    (hnl : ∀ c ∈ nl, ¬(c = 47 ∨ c = 63 ∨ c = 35))
    (hR : R = [] ∨ ∃ m t, R = m :: t ∧ (m = 47 ∨ m = 63 ∨ m = 35)) :
    splitnetloc ([47, 47] ++ (nl ++ R)) = (nl, R) := by
  rw [splitnetloc_def]
  have hdrop : ([47, 47] ++ (nl ++ R)).drop 2 = nl ++ R := rfl
  rw [hdrop]
  have htw : (nl ++ R).takeWhile (fun c => !(c == 47 || c == 63 || c == 35)) = nl := by
    rw [takeWhile_append_all R (fun c hc => netlocPred_true (hnl c hc))]
    rcases hR with hRe | ⟨m, t, hRe, hm⟩
    · rw [hRe]; simp
    · rw [hRe, List.takeWhile_cons, if_neg (by
        rcases hm with rfl | rfl | rfl <;> decide)]
      simp
  rw [htw, List.drop_left]

theorem urlsplit_compute {u sch url1 nl url2 url3 frag path query : PyStr}
    (hs : splitScheme u = (sch, url1))
    (hn : (if url1.take 2 = [47, 47] then splitnetloc url1 else ([], url1)) = (nl, url2))
    (hbr : ¬((91 ∈ nl ∧ ¬ 93 ∈ nl) ∨ (93 ∈ nl ∧ ¬ 91 ∈ nl)))
    (hf : pySplit1 url2 35 = (url3, frag))
    (hq : pySplit1 url3 63 = (path, query)) :
    urlsplit u = some ⟨sch, nl, path, query, frag⟩ := by
  unfold urlsplit
  rw [hs]
  dsimp only
  rw [hn]
  dsimp only
  rw [if_neg hbr, hf]
  dsimp only
  rw [hq]

/-- On components satisfying the invariants, `urlsplit` inverts
`urlunsplit` exactly. -/
theorem urlsplit_urlunsplit {p : SplitResult} (g : GoodSplit p) :
    urlsplit (urlunsplit p) = some p := by
  rw [urlunsplit_eq p g.netloc_path_slash]
  have hqtft : ((if p.query ≠ [] then 63 :: p.query else []) ++
      (if p.fragment ≠ [] then 35 :: p.fragment else [])) = [] ∨
      ∃ m t, ((if p.query ≠ [] then 63 :: p.query else []) ++
        (if p.fragment ≠ [] then 35 :: p.fragment else [])) = m :: t ∧ (m = 63 ∨ m = 35) := by
    by_cases hq : p.query ≠ []
    · right
      rw [if_pos hq]
      exact ⟨63, p.query ++ (if p.fragment ≠ [] then 35 :: p.fragment else []), rfl, Or.inl rfl⟩
    · rw [if_neg hq, List.nil_append]
      by_cases hf : p.fragment ≠ []
      · right
        rw [if_pos hf]
        exact ⟨35, p.fragment, rfl, Or.inr rfl⟩
      · left
        rw [if_neg hf]
  have hqt35 : 35 ∉ (if p.query ≠ [] then 63 :: p.query else []) := by
    by_cases hq : p.query ≠ []
    · rw [if_pos hq]
      intro hm
      rcases List.mem_cons.mp hm with h' | h'
      · exact absurd h' (by decide)
      · exact g.query_no_f h'
    · rw [if_neg hq]; simp
  have hPQ35 : 35 ∉ p.path ++ (if p.query ≠ [] then 63 :: p.query else []) := by
    intro hm
    rcases List.mem_append.mp hm with h' | h'
    · exact g.path_no_f h'
    · exact hqt35 h'
  have hsplit35 : pySplit1 (p.path ++ ((if p.query ≠ [] then 63 :: p.query else []) ++
      (if p.fragment ≠ [] then 35 :: p.fragment else []))) 35 =
      (p.path ++ (if p.query ≠ [] then 63 :: p.query else []), p.fragment) := by
    rw [← List.append_assoc]
    by_cases hf : p.fragment ≠ []
    · rw [if_pos hf]
      exact pySplit1_marker _ hPQ35
    · rw [if_neg hf]
      push_neg at hf
      rw [List.append_nil, pySplit1_of_not_mem hPQ35, hf]
  have hsplit63 : pySplit1 (p.path ++ (if p.query ≠ [] then 63 :: p.query else [])) 63 =
      (p.path, p.query) := by
    by_cases hq : p.query ≠ []
    · rw [if_pos hq]
      exact pySplit1_marker _ g.path_no_q
    · rw [if_neg hq]
      push_neg at hq
      rw [List.append_nil, pySplit1_of_not_mem g.path_no_q, hq]
  set qtft := ((if p.query ≠ [] then 63 :: p.query else []) ++
    (if p.fragment ≠ [] then 35 :: p.fragment else [])) with hqtft_def
  set R := p.path ++ qtft with hR_def
  by_cases hb : p.netloc ≠ [] ∨ (p.path ≠ [] ∧ p.path.take 2 = [47, 47])
  · rw [if_pos hb]
    have hslash := g.netloc_path_slash hb
    have hRhead : R = [] ∨ ∃ m t, R = m :: t ∧ (m = 47 ∨ m = 63 ∨ m = 35) := by
      rw [hR_def]
      rcases hslash with hp | hp
      · rw [hp, List.nil_append]
        rcases hqtft with h' | ⟨m, t, h', hm⟩
        · left; exact h'
        · right; exact ⟨m, t, h', Or.inr hm⟩
      · obtain ⟨t, ht⟩ := take_one_eq hp
        right
        rw [ht]
        exact ⟨47, t ++ qtft, rfl, Or.inl rfl⟩
    have hnetsplit : splitnetloc ([47, 47] ++ (p.netloc ++ R)) = (p.netloc, R) :=
      splitnetloc_branch g.netloc_clean hRhead
    have hn1 : (if ([47, 47] ++ (p.netloc ++ R)).take 2 = [47, 47]
        then splitnetloc ([47, 47] ++ (p.netloc ++ R))
        else ([], [47, 47] ++ (p.netloc ++ R))) = (p.netloc, R) := by
      have hcond : ([47, 47] ++ (p.netloc ++ R)).take 2 = [47, 47] := rfl
      rw [if_pos hcond]
      exact hnetsplit
    by_cases hsne : p.scheme ≠ []
    · rw [if_pos hsne]
      have hshape : (p.scheme ++ [58]) ++ (([47, 47] ++ p.netloc) ++ R) =
          p.scheme ++ 58 :: ([47, 47] ++ (p.netloc ++ R)) := by
        simp [List.append_assoc]
      rw [hshape]
      have hs1 : splitScheme (p.scheme ++ 58 :: ([47, 47] ++ (p.netloc ++ R))) =
          (p.scheme, [47, 47] ++ (p.netloc ++ R)) :=
        splitScheme_scheme_part hsne g.scheme_chars g.scheme_lower
      exact urlsplit_compute hs1 hn1 g.netloc_brackets hsplit35 hsplit63
    · rw [if_neg hsne, List.nil_append]
      push_neg at hsne
      have hshape : ([47, 47] ++ p.netloc) ++ R = 47 :: (47 :: (p.netloc ++ R)) := by
        simp [List.append_assoc]
      rw [hshape]
      have hs1 : splitScheme (47 :: (47 :: (p.netloc ++ R))) =
          (p.scheme, [47, 47] ++ (p.netloc ++ R)) := by
        rw [splitScheme_slash_head, hsne]
        rfl
      exact urlsplit_compute hs1 hn1 g.netloc_brackets hsplit35 hsplit63
  · rw [if_neg hb, List.nil_append]
    push_neg at hb
    obtain ⟨hnl, htake⟩ := hb
    have hnotake : R.take 2 ≠ [47, 47] := by
      rw [hR_def]
      match hpm : p.path with
      | [] =>
        rw [List.nil_append]
        rcases hqtft with h' | ⟨m, t, h', hm⟩
        · rw [h']
          simp
        · rw [h']
          intro hc
          rw [show (m :: t).take 2 = m :: t.take 1 from rfl] at hc
          injection hc with h1 h2
          rcases hm with rfl | rfl <;> omega
      | [c] =>
        rw [List.singleton_append]
        intro hc
        rw [show (c :: qtft).take 2 = c :: qtft.take 1 from rfl] at hc
        injection hc with h1 h2
        obtain ⟨t', ht'⟩ := take_one_eq h2
        rcases hqtft with h' | ⟨m, t, h', hm⟩
        · rw [h'] at ht'
          exact List.noConfusion ht'
        · rw [h'] at ht'
          injection ht' with h3 h4
          rcases hm with rfl | rfl <;> omega
      | c1 :: c2 :: t =>
        rw [show ((c1 :: c2 :: t) ++ qtft).take 2 = [c1, c2] from rfl]
        rw [hpm] at htake
        rw [show (c1 :: c2 :: t).take 2 = [c1, c2] from rfl] at htake
        exact htake (by simp)
    have hn1 : (if R.take 2 = [47, 47] then splitnetloc R else ([], R)) = (p.netloc, R) := by
      rw [if_neg hnotake, hnl]
    by_cases hsne : p.scheme ≠ []
    · rw [if_pos hsne]
      have hshape : (p.scheme ++ [58]) ++ R = p.scheme ++ 58 :: R := by
        simp [List.append_assoc]
      rw [hshape]
      have hs1 : splitScheme (p.scheme ++ 58 :: R) = (p.scheme, R) :=
        splitScheme_scheme_part hsne g.scheme_chars g.scheme_lower
      exact urlsplit_compute hs1 hn1 g.netloc_brackets hsplit35 hsplit63
    · rw [if_neg hsne, List.nil_append]
      push_neg at hsne
      have hs1 : splitScheme R = (p.scheme, R) := by
        rw [hR_def, splitScheme_path_part (g.no_scheme_path hsne) hqtft, hsne]
      exact urlsplit_compute hs1 hn1 g.netloc_brackets hsplit35 hsplit63

theorem qslPair?_chunk {k v : PyStr} (hk : isBytes k) (hv : isBytes v) (hvne : v ≠ []) :
    qslPair? (quotePlus k ++ 61 :: quotePlus v) = some (k, v) := by
  unfold qslPair?
  rw [if_neg (by simp)]
  rw [breakAt_marker _ (eq_not_mem_quotePlus hk)]
  dsimp only
  rw [if_neg (quotePlus_ne_nil hvne), unquotePlus_quotePlus hk, unquotePlus_quotePlus hv]

theorem filterMap_chunk_values {k : PyStr} (hk : isBytes k) :
    ∀ (vs : List PyStr), (∀ v ∈ vs, isBytes v ∧ v ≠ []) →
    (vs.map fun v => quotePlus k ++ 61 :: quotePlus v).filterMap qslPair? =
      vs.map fun v => (k, v)
  | [], _ => rfl
  | v :: vs, hvs => by
    obtain ⟨hv, hvne⟩ := hvs v (by simp)
    simp only [List.map_cons, List.filterMap_cons, qslPair?_chunk hk hv hvne]
    rw [filterMap_chunk_values hk vs fun x hx => hvs x (List.mem_cons_of_mem _ hx)]

theorem filterMap_chunks {d : List (PyStr × List PyStr)} (hb : qsDictBytes d)
    (hvals : ∀ kv ∈ d, ∀ v ∈ kv.2, v ≠ []) :
    (d.flatMap fun kv => kv.2.map fun v =>
      quotePlus kv.1 ++ 61 :: quotePlus v).filterMap qslPair? = qsPairs d := by
  induction d with
  | nil => rfl
  | cons kv rest ih =>
    rw [List.flatMap_cons, List.filterMap_append,
      filterMap_chunk_values (hb kv (by simp)).1 kv.2
        (fun v hv => ⟨(hb kv (by simp)).2 v hv, hvals kv (by simp) v hv⟩),
      ih (fun x hx => hb x (List.mem_cons_of_mem _ hx))
        (fun x hx => hvals x (List.mem_cons_of_mem _ hx))]
    rfl

theorem parse_qsl_urlencode {d : List (PyStr × List PyStr)}
    (hok : qsDictOk d) (hb : qsDictBytes d) :
    parse_qsl (urlencode d) = qsPairs d := by
  match d with
  | [] => rfl
  | kv₀ :: rest =>
    unfold parse_qsl urlencode
    have hchunks : (kv₀ :: rest).flatMap
        (fun kv => kv.2.map fun v => quotePlus kv.1 ++ 61 :: quotePlus v) ≠ [] := by
      obtain ⟨hne, -⟩ := hok.2 kv₀ (by simp)
      match hv : kv₀.2 with
      | [] => exact absurd hv hne
      | v :: vs => simp [hv]
    have hnosep : ∀ p ∈ (kv₀ :: rest).flatMap
        (fun kv => kv.2.map fun v => quotePlus kv.1 ++ 61 :: quotePlus v), 38 ∉ p := by
      intro p hp hmem
      simp only [List.mem_flatMap, List.mem_map] at hp
      obtain ⟨kv, hkv, v, hvv, rfl⟩ := hp
      rcases List.mem_append.mp hmem with h' | h'
      · exact amp_not_mem_quotePlus (hb kv hkv).1 h'
      · rcases List.mem_cons.mp h' with h'' | h''
        · exact absurd h'' (by decide)
        · exact amp_not_mem_quotePlus ((hb kv hkv).2 v hvv) h''
    rw [splitOn_joinSep hchunks hnosep]
    exact filterMap_chunks hb fun kv hkv => (hok.2 kv hkv).2

theorem foldl_qsInsert_values {k : PyStr} (vs : List PyStr) :
    ∀ (acc : List (PyStr × List PyStr)) (u : List PyStr), k ∉ acc.map (·.1) →
    (vs.map fun v => (k, v)).foldl (fun d kv => qsInsert d kv.1 kv.2) (acc ++ [(k, u)]) =
      acc ++ [(k, u ++ vs)] := by
  induction vs with
  | nil => intro acc u _; simp
  | cons v vs ih =>
    intro acc u hk
    have hstep : qsInsert (acc ++ [(k, u)]) k v = acc ++ [(k, u ++ [v])] := by
      unfold qsInsert
      rw [if_pos (by
        rw [List.any_eq_true]
        exact ⟨(k, u), by simp, by simp⟩)]
      rw [List.map_append]
      congr 1
      · have hfix : ∀ p ∈ acc, (if p.1 = k then (p.1, p.2 ++ [v]) else p) = id p := by
          intro p hp
          have hpk : p.1 ≠ k := fun hc => hk (hc ▸ List.mem_map_of_mem _ hp)
          rw [if_neg hpk]
          rfl
        rw [List.map_congr_left hfix, List.map_id]
      · simp
    simp only [List.map_cons, List.foldl_cons, hstep]
    rw [ih acc (u ++ [v]) hk, List.append_assoc]
    rfl

theorem foldl_qsInsert_pairs : ∀ (d : List (PyStr × List PyStr))
    (acc : List (PyStr × List PyStr)),
    (d.map (·.1)).Nodup → (∀ kv ∈ d, kv.2 ≠ []) →
    (∀ x ∈ acc.map (·.1), x ∉ d.map (·.1)) →
    (qsPairs d).foldl (fun d kv => qsInsert d kv.1 kv.2) acc = acc ++ d
  | [], acc, _, _, _ => by simp [qsPairs]
  | (k, vs) :: rest, acc, hnd, hne, hdisj => by
    have hkacc : k ∉ acc.map (·.1) := fun hc => hdisj k hc (by simp)
    match hvs : vs with
    | [] => exact absurd rfl (hne (k, []) (by rw [← hvs]; simp [hvs]))
    | v :: vs' =>
      show ((v :: vs').map (fun x => ((k, v :: vs').1, x)) ++ qsPairs rest).foldl
        (fun d kv => qsInsert d kv.1 kv.2) acc = acc ++ (k, v :: vs') :: rest
      rw [List.foldl_append]
      simp only [List.map_cons, List.foldl_cons]
      have hfirst : qsInsert acc k v = acc ++ [(k, [v])] := qsInsert_of_not_mem v hkacc
      rw [hfirst, foldl_qsInsert_values vs' acc [v] hkacc]
      have hrec := foldl_qsInsert_pairs rest (acc ++ [(k, [v] ++ vs')])
        (by simpa using (List.nodup_cons.mp (by simpa using hnd)).2)
        (fun kv hkv => hne kv (List.mem_cons_of_mem _ hkv))
        (by
          intro x hx
          rw [List.map_append] at hx
          rcases List.mem_append.mp hx with h' | h'
          · intro hc
            exact hdisj x h' (List.mem_cons_of_mem _ hc)
          · simp at h'
            subst h'
            exact (List.nodup_cons.mp (by simpa using hnd)).1)
      rw [hrec, List.append_assoc]
      rfl

/-- Roundtrip: `parse_qs` inverts `urlencode` on wellformed dicts. -/
theorem parse_qs_urlencode {d : List (PyStr × List PyStr)}
    (hok : qsDictOk d) (hb : qsDictBytes d) : parse_qs (urlencode d) = d := by
  unfold parse_qs
  rw [parse_qsl_urlencode hok hb]
  rw [foldl_qsInsert_pairs d [] hok.1 (fun kv h => (hok.2 kv h).1) (by simp)]
  rfl

/-! ## Facts about `scrub_parameters` and `parse_url` -/

theorem scrub_fst {url q : PyStr} :
    (scrub_parameters url q).1 = [] ∨
    ((scrub_parameters url q).1 =
        urlencode ((parse_qs q).filter fun kv => kv.1 ∉ TRACKING_PARAMETERS) ∧
      (parse_qs q).filter (fun kv => kv.1 ∉ TRACKING_PARAMETERS) ≠ []) := by
  unfold scrub_parameters
  dsimp only
  by_cases hf : (parse_qs q).filter (fun kv => decide (kv.1 ∉ TRACKING_PARAMETERS)) = []
  · rw [if_pos hf]
    left
    rfl
  · rw [if_neg hf]
    right
    exact ⟨rfl, by simpa using hf⟩

theorem filter_qsDictOk {d : List (PyStr × List PyStr)} (h : qsDictOk d)
    (p : PyStr × List PyStr → Bool) : qsDictOk (d.filter p) := by
  constructor
  · exact h.1.sublist (List.Sublist.map _ (List.filter_sublist d))
  · intro kv hkv
    exact h.2 kv (List.mem_of_mem_filter hkv)

theorem filter_qsDictBytes {d : List (PyStr × List PyStr)} (h : qsDictBytes d)
    (p : PyStr × List PyStr → Bool) : qsDictBytes (d.filter p) := by
  intro kv hkv
  exact h kv (List.mem_of_mem_filter hkv)

theorem joinSep_cons_ne_nil {sep : Nat} {x : PyStr} (hx : x ≠ []) (l : List PyStr) :
    joinSep sep (x :: l) ≠ [] := by
  match l with
  | [] => exact hx
  | y :: ys =>
    show x ++ sep :: joinSep sep (y :: ys) ≠ []
    simp

theorem urlencode_ne_nil {d : List (PyStr × List PyStr)}
    (hne : d ≠ []) (hvals : ∀ kv ∈ d, kv.2 ≠ []) : urlencode d ≠ [] := by
  match d with
  | [] => exact absurd rfl hne
  | kv :: rest =>
    have hv := hvals kv (by simp)
    match hkv : kv.2 with
    | [] => exact absurd hkv hv
    | v :: vs =>
      unfold urlencode
      rw [List.flatMap_cons, hkv, List.map_cons, List.cons_append]
      exact joinSep_cons_ne_nil (by simp) _

/-- The second pass of `scrub_parameters` over an already-scrubbed query is
the identity and emits no warning. -/
theorem scrub_clean {url q : PyStr} {d : List (PyStr × List PyStr)}
    (hd : parse_qs q = d)
    (hclean : ∀ kv ∈ d, kv.1 ∉ TRACKING_PARAMETERS)
    (hne : d ≠ [])
    (henc : urlencode d = q) :
    scrub_parameters url q = (q, []) := by
  unfold scrub_parameters
  dsimp only
  rw [hd]
  have hft : (d.filter fun kv => decide (kv.1 ∈ TRACKING_PARAMETERS)) = [] := by
    rw [List.filter_eq_nil_iff]
    intro kv hkv
    simpa using hclean kv hkv
  have hfd : (d.filter fun kv => decide (kv.1 ∉ TRACKING_PARAMETERS)) = d := by
    rw [List.filter_eq_self]
    intro kv hkv
    simpa using hclean kv hkv
  rw [hft, hfd, if_neg hne]
  simp [henc]

theorem parse_url_eq {link : PyStr} {p : SplitResult} (h : urlsplit link = some p) :
    parse_url link =
      some (urlunsplit ⟨p.scheme, p.netloc, p.path,
          (if p.query ≠ [] then scrub_parameters link p.query else (p.query, [])).1,
          p.fragment⟩,
        (if p.scheme = pys "mailto" ∨ p.scheme = pys "http" ∨ p.scheme = pys "https"
            then [] else [Warning.possiblyMalformedLink link]) ++
          (if p.query ≠ [] then scrub_parameters link p.query else (p.query, [])).2 ++
          (if urlunsplit ⟨p.scheme, p.netloc, p.path,
              (if p.query ≠ [] then scrub_parameters link p.query else (p.query, [])).1,
              p.fragment⟩ ≠ link
            then [Warning.linkCanBeSimplified link (urlunsplit ⟨p.scheme, p.netloc, p.path,
              (if p.query ≠ [] then scrub_parameters link p.query else (p.query, [])).1,
              p.fragment⟩)]
            else [])) := by
  unfold parse_url
  rw [h]

theorem lowerByte_lt {c : Nat} (h : c < 256) : lowerByte c < 256 := by
  unfold lowerByte
  split <;> omega

theorem urlsplit_components_isBytes {u : PyStr} {p : SplitResult}
    (h : urlsplit u = some p) (hb : isBytes u) :
    isBytes p.path ∧ isBytes p.query ∧ isBytes p.fragment := by
  obtain ⟨url1, url2, url3, hs, hn, -, hf, hqs⟩ := urlsplit_some h
  have hb1 : isBytes url1 := by
    rcases splitScheme_out hs with ⟨-, hrest, -⟩ | ⟨a, -, -, -, -, hdec⟩
    · rw [hrest]; exact hb
    · intro b hbm
      exact hb b (by rw [hdec]; simp [hbm])
  have hb2 : isBytes url2 := by
    rcases hn with ⟨-, hnl⟩ | ⟨-, -, rfl⟩
    · obtain ⟨hdec, -, -⟩ := splitnetloc_out hnl
      intro b hbm
      have : b ∈ url1.drop 2 := by rw [hdec]; simp [hbm]
      exact hb1 b (List.mem_of_mem_drop this)
    · exact hb1
  obtain ⟨-, hf_dec⟩ := pySplit1_out hf
  have hb3 : isBytes url3 ∧ isBytes p.fragment := by
    rcases hf_dec with h' | ⟨h', hfe⟩
    · constructor <;> intro b hbm <;> exact hb2 b (by rw [h']; simp [hbm])
    · exact ⟨h' ▸ hb2, by rw [hfe]; intro b hbm; simp at hbm⟩
  obtain ⟨-, hq_dec⟩ := pySplit1_out hqs
  have hb4 : isBytes p.path ∧ isBytes p.query := by
    rcases hq_dec with h' | ⟨h', hqe⟩
    · constructor <;> intro b hbm <;> exact hb3.1 b (by rw [h']; simp [hbm])
    · exact ⟨h' ▸ hb3.1, by rw [hqe]; intro b hbm; simp at hbm⟩
  exact ⟨hb4.1, hb4.2, hb3.2⟩

/-! ## The query marker argument

If the original URL had a nonempty query and the reassembly drops it, the two
strings differ: the original has a `?` before its first `#` and the
reassembly does not. -/

theorem marker_mem {c d : Nat} (hcd : c ≠ d) :
    ∀ {x y a b : PyStr}, x ++ c :: y = a ++ d :: b → d ∉ x → c ∈ a := by
  intro x
  induction x with
  | nil =>
    intro y a b heq hd
    match a, heq with
    | [], heq =>
      injection heq with h1 h2
      exact absurd h1 hcd
    | e :: a', heq =>
      injection heq with h1 h2
      rw [h1]
      simp
  | cons x0 x' ih =>
    intro y a b heq hd
    match a, heq with
    | [], heq =>
      injection heq with h1 h2
      exact absurd (h1 ▸ List.mem_cons_self x0 x') hd
    | e :: a', heq =>
      injection heq with h1 h2
      exact List.mem_cons_of_mem e (ih h2 fun hm => hd (List.mem_cons_of_mem _ hm))

theorem mem_pySplit1_fst {u x y : PyStr} (hdec : u = x ++ 63 :: y) (hx : 35 ∉ x) :
    63 ∈ (pySplit1 u 35).1 := by
  rcases hsp : pySplit1 u 35 with ⟨a, b⟩
  obtain ⟨hna, hcase⟩ := pySplit1_out hsp
  rcases hcase with h' | ⟨h', -⟩
  · have : (63 : Nat) ∈ a := marker_mem (by decide) (hdec ▸ h' : x ++ 63 :: y = a ++ 35 :: b) hx
    exact this
  · rw [← h', hdec]
    simp

/-- A URL that `urlsplit` gives a nonempty query has a `?` before its first
`#`. -/
theorem urlsplit_query_marker {u : PyStr} {p : SplitResult}
    (h : urlsplit u = some p) (hq : p.query ≠ []) :
    ∃ x y, u = x ++ 63 :: y ∧ 35 ∉ x := by
  obtain ⟨url1, url2, url3, hs, hn, -, hf, hqs⟩ := urlsplit_some h
  obtain ⟨hf_na, hf_dec⟩ := pySplit1_out hf
  obtain ⟨hq_na, hq_dec⟩ := pySplit1_out hqs
  have h3 : url3 = p.path ++ 63 :: p.query := by
    rcases hq_dec with h' | ⟨-, hqe⟩
    · exact h'
    · exact absurd hqe hq
  have hstep1 : ∃ S, u = S ++ url1 ∧ 35 ∉ S := by
    rcases splitScheme_out hs with ⟨-, hrest, -⟩ | ⟨a, -, hall, -, -, hdec⟩
    · exact ⟨[], by rw [hrest]; simp, by simp⟩
    · refine ⟨a ++ [58], by rw [hdec]; simp, ?_⟩
      intro hm
      rcases List.mem_append.mp hm with h' | h'
      · exact (schemeChar_not_special (List.all_eq_true.mp hall 35 h')).2.2.2 rfl
      · simp at h'
  have hstep2 : ∃ B, url1 = B ++ url2 ∧ 35 ∉ B := by
    rcases hn with ⟨htake, hnl⟩ | ⟨-, -, rfl⟩
    · obtain ⟨hd2, hclean, -⟩ := splitnetloc_out hnl
      refine ⟨[47, 47] ++ p.netloc, ?_, ?_⟩
      · conv_lhs => rw [← List.take_append_drop 2 url1]
        rw [htake, hd2, List.append_assoc]
      · intro hm
        rcases List.mem_append.mp hm with h' | h'
        · simp at h'
        · exact hclean 35 h' (Or.inr (Or.inr rfl))
    · exact ⟨[], by simp, by simp⟩
  have hstep3 : ∃ ft, url2 = url3 ++ ft := by
    rcases hf_dec with h' | ⟨h', -⟩
    · exact ⟨35 :: p.fragment, h'⟩
    · exact ⟨[], by rw [h', List.append_nil]⟩
  obtain ⟨S, hS, hS35⟩ := hstep1
  obtain ⟨B, hB, hB35⟩ := hstep2
  obtain ⟨ft, hft⟩ := hstep3
  refine ⟨S ++ (B ++ p.path), p.query ++ ft, ?_, ?_⟩
  · rw [hS, hB, hft, h3]
    simp [List.append_assoc]
  · intro hm
    rcases List.mem_append.mp hm with h' | h'
    · exact hS35 h'
    · rcases List.mem_append.mp h' with h'' | h''
      · exact hB35 h''
      · exact hf_na (by rw [h3]; simp [h''])

/-- A reassembled URL with an empty query component has no `?` before its
first `#`. -/
theorem recon_no_query_marker {P : SplitResult} (hq : P.query = []) (g : GoodSplit P) :
    63 ∉ (pySplit1 (urlunsplit P) 35).1 := by
  rw [urlunsplit_eq P g.netloc_path_slash, hq]
  rw [if_neg (by simp : ¬([] : PyStr) ≠ [])]
  rw [List.nil_append]
  have hS : ∀ c : Nat, c = 35 ∨ c = 63 →
      c ∉ (if P.scheme ≠ [] then P.scheme ++ [58] else []) := by
    intro c hc hm
    by_cases hs : P.scheme ≠ []
    · rw [if_pos hs] at hm
      rcases List.mem_append.mp hm with h' | h'
      · have := List.all_eq_true.mp g.scheme_chars c h'
        rcases hc with rfl | rfl <;> exact absurd this (by decide)
      · simp at h'
        rcases hc with rfl | rfl <;> omega
    · rw [if_neg hs] at hm
      simp at hm
  have hN : ∀ c : Nat, c = 35 ∨ c = 63 →
      c ∉ (if P.netloc ≠ [] ∨ (P.path ≠ [] ∧ P.path.take 2 = [47, 47])
        then [47, 47] ++ P.netloc else []) := by
    intro c hc hm
    by_cases hb : P.netloc ≠ [] ∨ (P.path ≠ [] ∧ P.path.take 2 = [47, 47])
    · rw [if_pos hb] at hm
      rcases List.mem_append.mp hm with h' | h'
      · simp at h'
        rcases hc with rfl | rfl <;> omega
      · refine g.netloc_clean c h' ?_
        rcases hc with rfl | rfl
        · exact Or.inr (Or.inr rfl)
        · exact Or.inr (Or.inl rfl)
    · rw [if_neg hb] at hm
      simp at hm
  have hcore35 : 35 ∉
      (if P.scheme ≠ [] then P.scheme ++ [58] else []) ++
        ((if P.netloc ≠ [] ∨ (P.path ≠ [] ∧ P.path.take 2 = [47, 47])
          then [47, 47] ++ P.netloc else []) ++ P.path) := by
    intro hm
    rcases List.mem_append.mp hm with h' | h'
    · exact hS 35 (Or.inl rfl) h'
    · rcases List.mem_append.mp h' with h'' | h''
      · exact hN 35 (Or.inl rfl) h''
      · exact g.path_no_f h''
  have hcore63 : 63 ∉
      (if P.scheme ≠ [] then P.scheme ++ [58] else []) ++
        ((if P.netloc ≠ [] ∨ (P.path ≠ [] ∧ P.path.take 2 = [47, 47])
          then [47, 47] ++ P.netloc else []) ++ P.path) := by
    intro hm
    rcases List.mem_append.mp hm with h' | h'
    · exact hS 63 (Or.inr rfl) h'
    · rcases List.mem_append.mp h' with h'' | h''
      · exact hN 63 (Or.inr rfl) h''
      · exact g.path_no_q h''
  have hshape : (if P.scheme ≠ [] then P.scheme ++ [58] else []) ++
      ((if P.netloc ≠ [] ∨ (P.path ≠ [] ∧ P.path.take 2 = [47, 47])
        then [47, 47] ++ P.netloc else []) ++
        (P.path ++ (if P.fragment ≠ [] then 35 :: P.fragment else []))) =
      ((if P.scheme ≠ [] then P.scheme ++ [58] else []) ++
        ((if P.netloc ≠ [] ∨ (P.path ≠ [] ∧ P.path.take 2 = [47, 47])
          then [47, 47] ++ P.netloc else []) ++ P.path)) ++
        (if P.fragment ≠ [] then 35 :: P.fragment else []) := by
    simp [List.append_assoc]
  rw [hshape]
  by_cases hf : P.fragment ≠ []
  · rw [if_pos hf, pySplit1_marker _ hcore35]
    exact hcore63
  · rw [if_neg hf, List.append_nil, pySplit1_of_not_mem hcore35]
    exact hcore63

/-- Dropping a nonempty query changes the URL text. -/
theorem recon_ne_of_query {u : PyStr} {p : SplitResult}
    (h : urlsplit u = some p) (hq : p.query ≠ []) :
    urlunsplit ⟨p.scheme, p.netloc, p.path, [], p.fragment⟩ ≠ u := by
  intro heq
  obtain ⟨x, y, hdec, hx⟩ := urlsplit_query_marker h hq
  have h63u : 63 ∈ (pySplit1 u 35).1 := mem_pySplit1_fst hdec hx
  have h63r : 63 ∉ (pySplit1 (urlunsplit ⟨p.scheme, p.netloc, p.path, [], p.fragment⟩) 35).1 :=
    recon_no_query_marker rfl (urlsplit_goodSplit h (by simp))
  rw [heq] at h63r
  exact h63r h63u

/-- Core of claim C2: a second `parse_url` pass returns its input unchanged
and emits no simplification warning. -/
theorem parse_url_second_pass {u : PyStr} (hb : isBytes u) {r : PyStr} {ws : List Warning}
    (h : parse_url u = some (r, ws)) :
    ∃ ws2, parse_url r = some (r, ws2) ∧
      ∀ x y, Warning.linkCanBeSimplified x y ∉ ws2 := by
  match hu : urlsplit u with
  | none =>
    unfold parse_url at h
    rw [hu] at h
    exact Option.noConfusion h
  | some p =>
    rw [parse_url_eq hu] at h
    set q1 := (if p.query ≠ [] then scrub_parameters u p.query else (p.query, [])).1 with hq1
    simp only [Option.some.injEq, Prod.mk.injEq] at h
    obtain ⟨hr, hws⟩ := h
    have hq1cases : q1 = [] ∨
        (q1 = urlencode ((parse_qs p.query).filter fun kv => kv.1 ∉ TRACKING_PARAMETERS) ∧
          ((parse_qs p.query).filter fun kv => kv.1 ∉ TRACKING_PARAMETERS) ≠ []) := by
      rw [hq1]
      by_cases hpq : p.query ≠ []
      · rw [if_pos hpq]
        exact scrub_fst
      · rw [if_neg hpq]
        push_neg at hpq
        left
        exact hpq
    have hbq : isBytes p.query := (urlsplit_components_isBytes hu hb).2.1
    have hq35 : 35 ∉ q1 := by
      rcases hq1cases with h1 | ⟨h1, -⟩
      · rw [h1]; simp
      · rw [h1]
        exact hash_not_mem_urlencode (filter_qsDictBytes (parse_qs_wf hbq).2 _)
    have g : GoodSplit ⟨p.scheme, p.netloc, p.path, q1, p.fragment⟩ :=
      urlsplit_goodSplit hu hq35
    have hrsplit : urlsplit r = some ⟨p.scheme, p.netloc, p.path, q1, p.fragment⟩ := by
      rw [← hr]
      exact urlsplit_urlunsplit g
    have hq2 : (if q1 ≠ [] then scrub_parameters r q1 else (q1, [])) = (q1, []) := by
      rcases hq1cases with h1 | ⟨h1, hdne⟩
      · rw [if_neg (by rw [h1]; simp)]
      · have hdOk := filter_qsDictOk (parse_qs_wf hbq).1
          (fun kv => decide (kv.1 ∉ TRACKING_PARAMETERS))
        have hdB := filter_qsDictBytes (parse_qs_wf hbq).2
          (fun kv => decide (kv.1 ∉ TRACKING_PARAMETERS))
        have hq1ne : q1 ≠ [] := by
          rw [h1]
          exact urlencode_ne_nil hdne fun kv hkv => (hdOk.2 kv hkv).1
        rw [if_pos hq1ne]
        refine scrub_clean ?_ ?_ hdne h1.symm
        · rw [h1]
          exact parse_qs_urlencode hdOk hdB
        · intro kv hkv
          simpa using List.of_mem_filter hkv
    refine ⟨(if p.scheme = pys "mailto" ∨ p.scheme = pys "http" ∨ p.scheme = pys "https"
      then [] else [Warning.possiblyMalformedLink r]), ?_, ?_⟩
    · rw [parse_url_eq hrsplit]
      dsimp only
      rw [hq2]
      dsimp only
      rw [hr]
      rw [if_neg (by simp : ¬ r ≠ r)]
      rw [List.append_nil, List.append_nil]
    · intro x y hmem
      by_cases hc : p.scheme = pys "mailto" ∨ p.scheme = pys "http" ∨ p.scheme = pys "https"
      · rw [if_pos hc] at hmem
        simp at hmem
      · rw [if_neg hc] at hmem
        simp at hmem

/-! ## The duplicate tracker -/

theorem find?_append_eq {α : Type} (l1 l2 : List α) (p : α → Bool) :
    (l1 ++ l2).find? p =
      (match l1.find? p with
        | some x => some x
        | none => l2.find? p) := by
  induction l1 with
  | nil => simp
  | cons a t ih =>
    by_cases ha : p a = true
    · rw [List.cons_append, List.find?_cons_of_pos _ ha, List.find?_cons_of_pos _ ha]
    · rw [List.cons_append, List.find?_cons_of_neg _ (by simpa using ha),
        List.find?_cons_of_neg _ (by simpa using ha), ih]

theorem find?_map_update {d : List (PyStr × PyStr)} {k : PyStr} (v : PyStr)
    (ha : ∃ p ∈ d, p.1 = k) :
    ((d.map fun p => if p.1 = k then (k, v) else p).find? fun p => p.1 = k) = some (k, v) := by
  induction d with
  | nil => simp at ha
  | cons p rest ih =>
    by_cases hp : p.1 = k
    · rw [List.map_cons, if_pos hp, List.find?_cons_of_pos _ (by simp)]
    · rw [List.map_cons, if_neg hp, List.find?_cons_of_neg _ (by simpa using hp)]
      apply ih
      rcases ha with ⟨q, hq, hqk⟩
      rcases List.mem_cons.mp hq with h' | h'
      · exact absurd (h' ▸ hqk) hp
      · exact ⟨q, h', hqk⟩

theorem find?_map_update_ne {d : List (PyStr × PyStr)} {k k' : PyStr} (v : PyStr)
    (hne : k' ≠ k) :
    ((d.map fun p => if p.1 = k then (k, v) else p).find? fun p => p.1 = k') =
      d.find? (fun p => p.1 = k') := by
  induction d with
  | nil => simp
  | cons p rest ih =>
    by_cases hp : p.1 = k
    · rw [List.map_cons, if_pos hp, List.find?_cons_of_neg _ (by simpa using Ne.symm hne),
        List.find?_cons_of_neg _ (by simp [hp]; exact fun hc => hne (hc ▸ hp ▸ rfl))]
      exact ih
    · rw [List.map_cons, if_neg hp]
      by_cases hp' : p.1 = k'
      · rw [List.find?_cons_of_pos _ (by simpa using hp'),
          List.find?_cons_of_pos _ (by simpa using hp')]
      · rw [List.find?_cons_of_neg _ (by simpa using hp'),
          List.find?_cons_of_neg _ (by simpa using hp')]
        exact ih

theorem dictGet_dictSet_self (d : List (PyStr × PyStr)) (k v : PyStr) :
    dictGet (dictSet d k v) k = some v := by
  unfold dictSet dictGet
  by_cases ha : (d.any fun p => p.1 = k) = true
  · rw [if_pos ha, find?_map_update v (by simpa [List.any_eq_true] using ha)]
    rfl
  · rw [if_neg ha, find?_append_eq]
    have hnone : (d.find? fun p => p.1 = k) = none := by
      rw [List.find?_eq_none]
      intro p hp
      intro hc
      exact ha (List.any_eq_true.mpr ⟨p, hp, hc⟩)
    rw [hnone]
    rw [List.find?_cons_of_pos _ (by simp)]
    rfl

theorem dictGet_dictSet_ne {k k' : PyStr} (hne : k' ≠ k) (d : List (PyStr × PyStr))
    (v : PyStr) : dictGet (dictSet d k v) k' = dictGet d k' := by
  unfold dictSet dictGet
  by_cases ha : (d.any fun p => p.1 = k) = true
  · rw [if_pos ha, find?_map_update_ne v hne]
  · rw [if_neg ha, find?_append_eq]
    match hfd : d.find? fun p => p.1 = k' with
    | some x =>
      rw [hfd]
    | none =>
      rw [hfd, List.find?_cons_of_neg _ (by simpa using Ne.symm hne)]
      rfl

/-- Links other than `l` neither touch `l`'s entry nor warn about `l`. -/
theorem inspectLinks_no_l {l f : PyStr} :
    ∀ (links : List PyStr) (ls : List (PyStr × PyStr)), l ∉ links →
    dictGet (inspectLinks f links ls).1 l = dictGet ls l ∧
    (inspectLinks f links ls).2.filter (mentionsDup l) = [] := by
  intro links
  induction links with
  | nil => intro ls _; exact ⟨rfl, rfl⟩
  | cons lnk rest ih =>
    intro ls hmem
    have hlnk : lnk ≠ l := fun hc => hmem (hc ▸ List.mem_cons_self lnk rest)
    have hrest : l ∉ rest := fun hc => hmem (List.mem_cons_of_mem _ hc)
    unfold inspectLinks
    match hg : dictGet ls lnk with
    | some c =>
      dsimp only
      by_cases hc : c ≠ []
      · rw [if_pos hc]
        obtain ⟨ih1, ih2⟩ := ih ls hrest
        refine ⟨ih1, ?_⟩
        rw [List.filter_cons, if_neg (by simp [mentionsDup, hlnk]), ih2]
      · rw [if_neg hc]
        obtain ⟨ih1, ih2⟩ := ih (dictSet ls lnk f) hrest
        exact ⟨by rw [ih1, dictGet_dictSet_ne (Ne.symm hlnk)], ih2⟩
    | none =>
      obtain ⟨ih1, ih2⟩ := ih (dictSet ls lnk f) hrest
      exact ⟨by rw [ih1, dictGet_dictSet_ne (Ne.symm hlnk)], ih2⟩

/-- With an existing nonempty entry `c` for `l`, a file emits one duplicate
warning per occurrence of `l` and leaves the entry alone. -/
theorem inspectLinks_collision {l c f : PyStr} (hc : c ≠ []) :
    ∀ (links : List PyStr) (ls : List (PyStr × PyStr)), dictGet ls l = some c →
    dictGet (inspectLinks f links ls).1 l = some c ∧
    (inspectLinks f links ls).2.filter (mentionsDup l) =
      List.replicate (links.count l) (Warning.possibleDuplicateLink l f c) := by
  intro links
  induction links with
  | nil => intro ls hget; exact ⟨hget, rfl⟩
  | cons lnk rest ih =>
    intro ls hget
    by_cases hl : lnk = l
    · subst hl
      unfold inspectLinks
      rw [hget]
      dsimp only
      rw [if_pos hc]
      obtain ⟨ih1, ih2⟩ := ih ls hget
      refine ⟨ih1, ?_⟩
      rw [List.filter_cons, if_pos (by simp [mentionsDup]), ih2]
      rw [List.count_cons_self]
      rfl
    · unfold inspectLinks
      have hcount : (lnk :: rest).count l = rest.count l :=
        List.count_cons_of_ne (fun hc' => hl hc'.symm) rest
      match hg : dictGet ls lnk with
      | some c2 =>
        dsimp only
        by_cases hc2 : c2 ≠ []
        · rw [if_pos hc2]
          obtain ⟨ih1, ih2⟩ := ih ls hget
          refine ⟨ih1, ?_⟩
          rw [List.filter_cons, if_neg (by simp [mentionsDup, hl]), ih2, hcount]
        · rw [if_neg hc2]
          obtain ⟨ih1, ih2⟩ := ih (dictSet ls lnk f)
            (by rw [dictGet_dictSet_ne (Ne.symm hl)]; exact hget)
          rw [hcount]
          exact ⟨ih1, ih2⟩
      | none =>
        obtain ⟨ih1, ih2⟩ := ih (dictSet ls lnk f)
          (by rw [dictGet_dictSet_ne (Ne.symm hl)]; exact hget)
        rw [hcount]
        exact ⟨ih1, ih2⟩

/-- The first file containing `l` (nonempty name `f`) inserts `l ↦ f` and
warns once per later occurrence of `l` in the same file, blaming `f`
itself. -/
theorem inspectLinks_first {l f : PyStr} (hf : f ≠ []) :
    ∀ (pre : List PyStr) (post : List PyStr) (ls : List (PyStr × PyStr)),
    l ∉ pre → dictGet ls l = none →
    dictGet (inspectLinks f (pre ++ l :: post) ls).1 l = some f ∧
    (inspectLinks f (pre ++ l :: post) ls).2.filter (mentionsDup l) =
      List.replicate (post.count l) (Warning.possibleDuplicateLink l f f) := by
  intro pre
  induction pre with
  | nil =>
    intro post ls _ hget
    rw [List.nil_append]
    unfold inspectLinks
    rw [hget]
    exact inspectLinks_collision hf post (dictSet ls l f) (dictGet_dictSet_self ls l f)
  | cons lnk rest ih =>
    intro post ls hmem hget
    have hlnk : lnk ≠ l := fun hc => hmem (hc ▸ List.mem_cons_self lnk rest)
    have hrest : l ∉ rest := fun hc => hmem (List.mem_cons_of_mem _ hc)
    rw [List.cons_append]
    unfold inspectLinks
    match hg : dictGet ls lnk with
    | some c2 =>
      dsimp only
      by_cases hc2 : c2 ≠ []
      · rw [if_pos hc2]
        obtain ⟨ih1, ih2⟩ := ih post ls hrest hget
        refine ⟨ih1, ?_⟩
        rw [List.filter_cons, if_neg (by simp [mentionsDup, hlnk]), ih2]
      · rw [if_neg hc2]
        exact ih post (dictSet ls lnk f) hrest
          (by rw [dictGet_dictSet_ne (Ne.symm hlnk)]; exact hget)
    | none =>
      exact ih post (dictSet ls lnk f) hrest
        (by rw [dictGet_dictSet_ne (Ne.symm hlnk)]; exact hget)

theorem inspectFilesLoop_no_l {l : PyStr} :
    ∀ (files : List (PyStr × List PyStr)) (ls : List (PyStr × PyStr)),
    (∀ fp ∈ files, l ∉ fp.2) →
    dictGet (inspectFilesLoop files ls).1 l = dictGet ls l ∧
    (inspectFilesLoop files ls).2.filter (mentionsDup l) = [] := by
  intro files
  induction files with
  | nil => intro ls _; exact ⟨rfl, rfl⟩
  | cons fp rest ih =>
    intro ls hmem
    obtain ⟨hfp1, hfp2⟩ := inspectLinks_no_l fp.2 ls (hmem fp (by simp))
    obtain ⟨ih1, ih2⟩ := ih (inspectLinks fp.1 fp.2 ls).1
      (fun x hx => hmem x (List.mem_cons_of_mem _ hx))
    refine ⟨by rw [show (inspectFilesLoop (fp :: rest) ls).1 =
        (inspectFilesLoop rest (inspectLinks fp.1 fp.2 ls).1).1 from rfl, ih1, hfp1], ?_⟩
    rw [show (inspectFilesLoop (fp :: rest) ls).2 =
      (inspectLinks fp.1 fp.2 ls).2 ++ (inspectFilesLoop rest (inspectLinks fp.1 fp.2 ls).1).2
      from rfl]
    rw [List.filter_append, hfp2, ih2]
    rfl

theorem inspectFilesLoop_collision {l c : PyStr} (hc : c ≠ []) :
    ∀ (files : List (PyStr × List PyStr)) (ls : List (PyStr × PyStr)),
    dictGet ls l = some c →
    dictGet (inspectFilesLoop files ls).1 l = some c ∧
    (inspectFilesLoop files ls).2.filter (mentionsDup l) =
      files.flatMap fun fp =>
        List.replicate (fp.2.count l) (Warning.possibleDuplicateLink l fp.1 c) := by
  intro files
  induction files with
  | nil => intro ls hget; exact ⟨hget, rfl⟩
  | cons fp rest ih =>
    intro ls hget
    obtain ⟨hfp1, hfp2⟩ := inspectLinks_collision hc fp.2 ls hget
    obtain ⟨ih1, ih2⟩ := ih (inspectLinks fp.1 fp.2 ls).1 hfp1
    refine ⟨by rw [show (inspectFilesLoop (fp :: rest) ls).1 =
        (inspectFilesLoop rest (inspectLinks fp.1 fp.2 ls).1).1 from rfl, ih1], ?_⟩
    rw [show (inspectFilesLoop (fp :: rest) ls).2 =
      (inspectLinks fp.1 fp.2 ls).2 ++ (inspectFilesLoop rest (inspectLinks fp.1 fp.2 ls).1).2
      from rfl]
    rw [List.filter_append, hfp2, ih2, List.flatMap_cons]

theorem inspectFilesLoop_append (fs1 fs2 : List (PyStr × List PyStr)) :
    ∀ ls, inspectFilesLoop (fs1 ++ fs2) ls =
      ((inspectFilesLoop fs2 (inspectFilesLoop fs1 ls).1).1,
        (inspectFilesLoop fs1 ls).2 ++ (inspectFilesLoop fs2 (inspectFilesLoop fs1 ls).1).2) := by
  induction fs1 with
  | nil => intro ls; simp [inspectFilesLoop]
  | cons fp rest ih =>
    intro ls
    rw [List.cons_append]
    show ((inspectFilesLoop (rest ++ fs2) (inspectLinks fp.1 fp.2 ls).1).1,
      (inspectLinks fp.1 fp.2 ls).2 ++ (inspectFilesLoop (rest ++ fs2)
        (inspectLinks fp.1 fp.2 ls).1).2) = _
    rw [ih (inspectLinks fp.1 fp.2 ls).1]
    show (_, (inspectLinks fp.1 fp.2 ls).2 ++
      ((inspectFilesLoop rest (inspectLinks fp.1 fp.2 ls).1).2 ++ _)) = _
    rw [← List.append_assoc]
    rfl

theorem inspectFilesLoop_snd_append (fs1 fs2 : List (PyStr × List PyStr))
    (ls : List (PyStr × PyStr)) :
    (inspectFilesLoop (fs1 ++ fs2) ls).2 =
      (inspectFilesLoop fs1 ls).2 ++
        (inspectFilesLoop fs2 (inspectFilesLoop fs1 ls).1).2 := by
  rw [inspectFilesLoop_append]

theorem inspectFilesLoop_fst_append (fs1 fs2 : List (PyStr × List PyStr))
    (ls : List (PyStr × PyStr)) :
    (inspectFilesLoop (fs1 ++ fs2) ls).1 =
      (inspectFilesLoop fs2 (inspectFilesLoop fs1 ls).1).1 := by
  rw [inspectFilesLoop_append]

theorem inspectFilesLoop_snd_cons (f : PyStr) (links : List PyStr)
    (rest : List (PyStr × List PyStr)) (ls : List (PyStr × PyStr)) :
    (inspectFilesLoop ((f, links) :: rest) ls).2 =
      (inspectLinks f links ls).2 ++
        (inspectFilesLoop rest (inspectLinks f links ls).1).2 := rfl

theorem inspectFilesLoop_fst_cons (f : PyStr) (links : List PyStr)
    (rest : List (PyStr × List PyStr)) (ls : List (PyStr × PyStr)) :
    (inspectFilesLoop ((f, links) :: rest) ls).1 =
      (inspectFilesLoop rest (inspectLinks f links ls).1).1 := rfl

/-! ## The claims -/

/-- Claim C1: for the input URL `https://example.com/a?utm_source=x&ref=y`,
`parse_url` returns the normalized string `https://example.com/a?ref=y` and
records exactly two warnings, in order: the tracking-parameter warning listing
`['utm_source']` and the simplification warning carrying the original and the
reassembled URL. -/
theorem claim_C1 :
    parse_url (pys "https://example.com/a?utm_source=x&ref=y") =
      some (pys "https://example.com/a?ref=y",
        [Warning.foundTrackingParameters (pys "https://example.com/a?utm_source=x&ref=y")
          [pys "utm_source"],
         Warning.linkCanBeSimplified (pys "https://example.com/a?utm_source=x&ref=y")
          (pys "https://example.com/a?ref=y")]) := by
  decide

/-- Claim C2: normalization is idempotent.  For every byte string `u` on which
`parse_url` returns a result `r`, `parse_url r` returns `r` itself unchanged,
and the second application records no "link can be simplified" warning. -/
theorem claim_C2 (u : PyStr) (hb : isBytes u) (r : PyStr) (ws : List Warning)
    (h : parse_url u = some (r, ws)) :
    ∃ ws2, parse_url r = some (r, ws2) ∧
      ∀ x y, Warning.linkCanBeSimplified x y ∉ ws2 :=
  parse_url_second_pass hb h

/-- Witness for C2 at the concrete input of the worked scenario. -/
theorem claim_C2_witness :
    ∃ ws2, parse_url (pys "https://example.com/a?ref=y") =
        some (pys "https://example.com/a?ref=y", ws2) ∧
      ∀ x y, Warning.linkCanBeSimplified x y ∉ ws2 :=
  claim_C2 (pys "https://example.com/a?utm_source=x&ref=y") (by decide)
    (pys "https://example.com/a?ref=y")
    [Warning.foundTrackingParameters (pys "https://example.com/a?utm_source=x&ref=y")
      [pys "utm_source"],
     Warning.linkCanBeSimplified (pys "https://example.com/a?utm_source=x&ref=y")
      (pys "https://example.com/a?ref=y")]
    (by decide)

/-- Counterexample to claim C3 as stated: the URL
`https://example.com/a?x` has a non-empty query string all of whose parsed
query parameters (there are none: a chunk without `=` is dropped) lie in the
tracking block-list, yet `parse_url` records no "found tracking parameters"
warning at all — only the simplification warning. -/
theorem claim_C3_counterexample :
    ∃ p, urlsplit (pys "https://example.com/a?x") = some p ∧ p.query ≠ [] ∧
      (∀ kv ∈ parse_qs p.query, kv.1 ∈ TRACKING_PARAMETERS) ∧
      parse_url (pys "https://example.com/a?x") =
        some (pys "https://example.com/a",
          [Warning.linkCanBeSimplified (pys "https://example.com/a?x")
            (pys "https://example.com/a")]) := by
  refine ⟨⟨pys "https", pys "example.com", pys "/a", pys "x", []⟩, ?_, ?_, ?_, ?_⟩
  · decide
  · decide
  · decide
  · decide

/-- Claim C3 as amended: for every URL whose query string parses to at least
one parameter and whose parameter names all lie in the tracking block-list,
`parse_url` returns the reassembly with an empty query component, records
exactly one "found tracking parameters" warning, and exactly one "link can be
simplified" warning. -/
theorem claim_C3_amended (u : PyStr) (p : SplitResult)
    (h : urlsplit u = some p) (hqne : p.query ≠ [])
    (hparams : parse_qs p.query ≠ [])
    (htrack : ∀ kv ∈ parse_qs p.query, kv.1 ∈ TRACKING_PARAMETERS) :
    ∃ ws, parse_url u = some (urlunsplit ⟨p.scheme, p.netloc, p.path, [], p.fragment⟩, ws) ∧
      (ws.filter fun w => match w with
        | Warning.foundTrackingParameters _ _ => true | _ => false) =
        [Warning.foundTrackingParameters u ((parse_qs p.query).map (·.1))] ∧
      (ws.filter fun w => match w with
        | Warning.linkCanBeSimplified _ _ => true | _ => false) =
        [Warning.linkCanBeSimplified u
          (urlunsplit ⟨p.scheme, p.netloc, p.path, [], p.fragment⟩)] := by
  have hscrub : scrub_parameters u p.query =
      ([], [Warning.foundTrackingParameters u ((parse_qs p.query).map (·.1))]) := by
    unfold scrub_parameters
    dsimp only
    have hft : ((parse_qs p.query).filter fun kv => decide (kv.1 ∈ TRACKING_PARAMETERS)) =
        parse_qs p.query := by
      rw [List.filter_eq_self]
      intro kv hkv
      simpa using htrack kv hkv
    have hfd : ((parse_qs p.query).filter fun kv => decide (kv.1 ∉ TRACKING_PARAMETERS)) =
        [] := by
      rw [List.filter_eq_nil_iff]
      intro kv hkv
      simpa using htrack kv hkv
    rw [hft, hfd]
    have hmapne : ((parse_qs p.query).map (·.1)) ≠ [] := by
      match hpq : parse_qs p.query with
      | [] => exact absurd hpq hparams
      | kv :: rest => simp
    rw [if_pos hmapne, if_pos rfl]
  have hne : urlunsplit ⟨p.scheme, p.netloc, p.path, [], p.fragment⟩ ≠ u :=
    recon_ne_of_query h hqne
  rw [parse_url_eq h, if_pos hqne, hscrub]
  dsimp only
  rw [if_pos hne]
  refine ⟨_, rfl, ?_, ?_⟩
  · rw [List.filter_append, List.filter_append]
    rw [show (List.filter (fun w => match w with
        | Warning.foundTrackingParameters _ _ => true | _ => false)
        [Warning.foundTrackingParameters u ((parse_qs p.query).map (·.1))]) =
        [Warning.foundTrackingParameters u ((parse_qs p.query).map (·.1))] from rfl]
    rw [show (List.filter (fun w => match w with
        | Warning.foundTrackingParameters _ _ => true | _ => false)
        [Warning.linkCanBeSimplified u
          (urlunsplit ⟨p.scheme, p.netloc, p.path, [], p.fragment⟩)]) = [] from rfl]
    by_cases hc : p.scheme = pys "mailto" ∨ p.scheme = pys "http" ∨ p.scheme = pys "https"
    · rw [if_pos hc]
      rfl
    · rw [if_neg hc]
      rfl
  · rw [List.filter_append, List.filter_append]
    rw [show (List.filter (fun w => match w with
        | Warning.linkCanBeSimplified _ _ => true | _ => false)
        [Warning.foundTrackingParameters u ((parse_qs p.query).map (·.1))]) = [] from rfl]
    rw [show (List.filter (fun w => match w with
        | Warning.linkCanBeSimplified _ _ => true | _ => false)
        [Warning.linkCanBeSimplified u
          (urlunsplit ⟨p.scheme, p.netloc, p.path, [], p.fragment⟩)]) =
        [Warning.linkCanBeSimplified u
          (urlunsplit ⟨p.scheme, p.netloc, p.path, [], p.fragment⟩)] from rfl]
    by_cases hc : p.scheme = pys "mailto" ∨ p.scheme = pys "http" ∨ p.scheme = pys "https"
    · rw [if_pos hc]
      rfl
    · rw [if_neg hc]
      rfl

/-- Witness for the amended C3 at `https://e/p?utm_source=a`. -/
theorem claim_C3_amended_witness :
    ∃ ws, parse_url (pys "https://e/p?utm_source=a") =
        some (urlunsplit ⟨pys "https", pys "e", pys "/p", [], []⟩, ws) ∧
      (ws.filter fun w => match w with
        | Warning.foundTrackingParameters _ _ => true | _ => false) =
        [Warning.foundTrackingParameters (pys "https://e/p?utm_source=a")
          ((parse_qs (pys "utm_source=a")).map (·.1))] ∧
      (ws.filter fun w => match w with
        | Warning.linkCanBeSimplified _ _ => true | _ => false) =
        [Warning.linkCanBeSimplified (pys "https://e/p?utm_source=a")
          (urlunsplit ⟨pys "https", pys "e", pys "/p", [], []⟩)] :=
  claim_C3_amended (pys "https://e/p?utm_source=a")
    ⟨pys "https", pys "e", pys "/p", pys "utm_source=a", []⟩
    (by decide) (by decide) (by decide) (by decide)

/-- Counterexample to claim C4 as stated: a link occurring twice in a single
file (and in no other file) DOES produce a duplicate warning — the tracker's
mapping is shared within a file, so the second occurrence collides with the
first and the warning names the same file as the prior occurrence. -/
theorem claim_C4_counterexample :
    inspect_files [(pys "f1", [pys "a", pys "a"])] =
      [Warning.possibleDuplicateLink (pys "a") (pys "f1") (pys "f1")] ∧
    (inspect_files [(pys "f1", [pys "a", pys "a"])]).filter (mentionsDup (pys "a")) ≠ [] := by
  constructor
  · decide
  · decide

/-- Claim C4 as amended: for a run in which a link `l` occurs in exactly one
file (named `f`, non-empty), the duplicate warnings about `l` are one per
repeat occurrence of `l` within that file, each naming `f` itself as the
prior occurrence; in particular, if `l` occurs only once in the file
(`v2.count l = 0`), no duplicate warning about `l` is recorded. -/
theorem claim_C4_amended (l f : PyStr) (hf : f ≠ [])
    (A B : List (PyStr × List PyStr)) (v1 v2 : List PyStr)
    (hv1 : l ∉ v1) (hA : ∀ fp ∈ A, l ∉ fp.2) (hB : ∀ fp ∈ B, l ∉ fp.2) :
    (inspect_files (A ++ (f, v1 ++ l :: v2) :: B)).filter (mentionsDup l) =
      List.replicate (v2.count l) (Warning.possibleDuplicateLink l f f) := by
  unfold inspect_files
  rw [inspectFilesLoop_snd_append, inspectFilesLoop_snd_cons]
  obtain ⟨hgA, hfA⟩ := inspectFilesLoop_no_l A [] hA
  have hgA2 : dictGet (inspectFilesLoop A []).1 l = none := hgA
  obtain ⟨hg1, hf1⟩ := inspectLinks_first hf v1 v2 (inspectFilesLoop A []).1 hv1 hgA2
  obtain ⟨hgB, hfB⟩ := inspectFilesLoop_no_l B
    (inspectLinks f (v1 ++ l :: v2) (inspectFilesLoop A []).1).1 hB
  rw [List.filter_append, List.filter_append, hfA, hf1, hfB,
    List.nil_append, List.append_nil]

/-- Witness for the amended C4: a link repeated once within a single file
yields exactly one duplicate warning naming that same file. -/
theorem claim_C4_amended_witness :
    (inspect_files [(pys "f1", [pys "a", pys "a"])]).filter (mentionsDup (pys "a")) =
      List.replicate (([pys "a"] : List PyStr).count (pys "a"))
        (Warning.possibleDuplicateLink (pys "a") (pys "f1") (pys "f1")) :=
  claim_C4_amended (pys "a") (pys "f1") (by decide) [] [] [] [pys "a"]
    (List.not_mem_nil _)
    (fun fp h => absurd h (List.not_mem_nil fp))
    (fun fp h => absurd h (List.not_mem_nil fp))

/-- Claim C5: a link extracted once each from three distinct files (the first
of which has a non-empty name), and occurring nowhere else in the run,
produces exactly two duplicate warnings, both naming the first file as the
prior occurrence — the mapping entry is never updated on a collision. -/
theorem claim_C5 (l fa fb fc : PyStr) (hfa : fa ≠ [])
    (hab : fa ≠ fb) (hac : fa ≠ fc) (hbc : fb ≠ fc)
    (A B C D : List (PyStr × List PyStr))
    (a1 a2 b1 b2 c1 c2 : List PyStr)
    (ha1 : l ∉ a1) (ha2 : l ∉ a2) (hb1 : l ∉ b1) (hb2 : l ∉ b2)
    (hc1 : l ∉ c1) (hc2 : l ∉ c2)
    (hA : ∀ fp ∈ A, l ∉ fp.2) (hB : ∀ fp ∈ B, l ∉ fp.2)
    (hC : ∀ fp ∈ C, l ∉ fp.2) (hD : ∀ fp ∈ D, l ∉ fp.2) :
    (inspect_files (A ++ (fa, a1 ++ l :: a2) :: (B ++ (fb, b1 ++ l :: b2) ::
        (C ++ (fc, c1 ++ l :: c2) :: D)))).filter (mentionsDup l) =
      [Warning.possibleDuplicateLink l fb fa,
       Warning.possibleDuplicateLink l fc fa] := by
  unfold inspect_files
  rw [inspectFilesLoop_snd_append, inspectFilesLoop_snd_cons,
    inspectFilesLoop_snd_append, inspectFilesLoop_snd_cons,
    inspectFilesLoop_snd_append, inspectFilesLoop_snd_cons]
  set lsA := (inspectFilesLoop A []).1 with hlsA
  set ls2 := (inspectLinks fa (a1 ++ l :: a2) lsA).1 with hls2
  set ls3 := (inspectFilesLoop B ls2).1 with hls3
  set ls4 := (inspectLinks fb (b1 ++ l :: b2) ls3).1 with hls4
  set ls5 := (inspectFilesLoop C ls4).1 with hls5
  set ls6 := (inspectLinks fc (c1 ++ l :: c2) ls5).1 with hls6
  obtain ⟨hgA, hfA⟩ := inspectFilesLoop_no_l A [] hA
  have hgA2 : dictGet lsA l = none := hgA
  obtain ⟨hg2, hf2⟩ := inspectLinks_first hfa a1 a2 lsA ha1 hgA2
  have hg2s : dictGet ls2 l = some fa := hg2
  rw [List.count_eq_zero.mpr ha2, List.replicate_zero] at hf2
  obtain ⟨hgB, hfB⟩ := inspectFilesLoop_no_l B ls2 hB
  have hg3s : dictGet ls3 l = some fa := hgB.trans hg2s
  obtain ⟨hg4, hf4⟩ := @inspectLinks_collision l fa fb hfa (b1 ++ l :: b2) ls3 hg3s
  have hg4s : dictGet ls4 l = some fa := hg4
  have hcb : (b1 ++ l :: b2).count l = 1 := by
    rw [List.count_append, List.count_cons_self,
      List.count_eq_zero.mpr hb1, List.count_eq_zero.mpr hb2]
  rw [hcb, List.replicate_one] at hf4
  obtain ⟨hgC, hfC⟩ := inspectFilesLoop_no_l C ls4 hC
  have hg5s : dictGet ls5 l = some fa := hgC.trans hg4s
  obtain ⟨hg6, hf6⟩ := @inspectLinks_collision l fa fc hfa (c1 ++ l :: c2) ls5 hg5s
  have hcc : (c1 ++ l :: c2).count l = 1 := by
    rw [List.count_append, List.count_cons_self,
      List.count_eq_zero.mpr hc1, List.count_eq_zero.mpr hc2]
  rw [hcc, List.replicate_one] at hf6
  obtain ⟨hgD, hfD⟩ := inspectFilesLoop_no_l D ls6 hD
  simp only [List.filter_append]
  rw [hfA, hf2, hfB, hf4, hfC, hf6, hfD]
  rfl

/-- Witness for C5: one link in each of three one-link files. -/
theorem claim_C5_witness :
    (inspect_files [(pys "f1", [pys "a"]), (pys "f2", [pys "a"]),
        (pys "f3", [pys "a"])]).filter (mentionsDup (pys "a")) =
      [Warning.possibleDuplicateLink (pys "a") (pys "f2") (pys "f1"),
       Warning.possibleDuplicateLink (pys "a") (pys "f3") (pys "f1")] :=
  claim_C5 (pys "a") (pys "f1") (pys "f2") (pys "f3") (by decide)
    (by decide) (by decide) (by decide) [] [] [] []
    [] [] [] [] [] []
    (List.not_mem_nil _) (List.not_mem_nil _) (List.not_mem_nil _)
    (List.not_mem_nil _) (List.not_mem_nil _) (List.not_mem_nil _)
    (fun fp h => absurd h (List.not_mem_nil fp))
    (fun fp h => absurd h (List.not_mem_nil fp))
    (fun fp h => absurd h (List.not_mem_nil fp))
    (fun fp h => absurd h (List.not_mem_nil fp))

/-- Claim C6: for every URL whose split has no query string, `parse_url`
returns the reassembly of (scheme, netloc, path, empty query, fragment) and
never records a "found tracking parameters" warning. -/
theorem claim_C6 (u : PyStr) (p : SplitResult) (h : urlsplit u = some p)
    (hq : p.query = []) :
    ∃ ws, parse_url u =
        some (urlunsplit ⟨p.scheme, p.netloc, p.path, [], p.fragment⟩, ws) ∧
      ∀ l names, Warning.foundTrackingParameters l names ∉ ws := by
  rw [parse_url_eq h, hq]
  rw [if_neg (show ¬(([] : PyStr) ≠ []) by simp)]
  dsimp only
  refine ⟨_, rfl, ?_⟩
  intro l names hmem
  rw [List.mem_append, List.mem_append] at hmem
  rcases hmem with (hmem | hmem) | hmem
  · by_cases hc : p.scheme = pys "mailto" ∨ p.scheme = pys "http" ∨ p.scheme = pys "https"
    · rw [if_pos hc] at hmem
      simp at hmem
    · rw [if_neg hc] at hmem
      simp at hmem
  · simp at hmem
  · by_cases hc : urlunsplit ⟨p.scheme, p.netloc, p.path, [], p.fragment⟩ ≠ u
    · rw [if_pos hc] at hmem
      simp at hmem
    · rw [if_neg hc] at hmem
      simp at hmem

/-- Witness for C6 at a query-free URL. -/
theorem claim_C6_witness :
    ∃ ws, parse_url (pys "https://example.com/x") =
        some (urlunsplit ⟨pys "https", pys "example.com", pys "/x", [], []⟩, ws) ∧
      ∀ l names, Warning.foundTrackingParameters l names ∉ ws :=
  claim_C6 (pys "https://example.com/x")
    ⟨pys "https", pys "example.com", pys "/x", [], []⟩ (by decide) (by decide)

/-- Claim C7: the epilogue exits 0 printing exactly the success line iff no
warnings were accumulated; with warnings it exits 1 and prints a header line
followed by each warning rendered on its own line, in accumulation order. -/
theorem claim_C7 (ws : List Warning) :
    (((finalReport ws).code = 0 ∧
        (finalReport ws).lines = [pys "everything is ok!"]) ↔ ws = []) ∧
    (ws ≠ [] → (finalReport ws).code = 1 ∧
      (finalReport ws).lines = pys "warnings exist:" :: ws.map renderWarning) := by
  constructor
  · constructor
    · intro hok
      by_contra hne
      have h0 := hok.1
      unfold finalReport at h0
      rw [if_neg hne] at h0
      simp at h0
    · intro hws
      subst hws
      exact ⟨rfl, rfl⟩
  · intro hne
    unfold finalReport
    rw [if_neg hne]
    exact ⟨rfl, rfl⟩

/-- Witness for C7 with one accumulated warning. -/
theorem claim_C7_witness :
    (finalReport [Warning.possiblyMalformedLink (pys "ftp://x")]).code = 1 ∧
    (finalReport [Warning.possiblyMalformedLink (pys "ftp://x")]).lines =
      pys "warnings exist:" ::
        [Warning.possiblyMalformedLink (pys "ftp://x")].map renderWarning :=
  (claim_C7 [Warning.possiblyMalformedLink (pys "ftp://x")]).2 (by decide)

/-- Counterexample to claim C8 as stated: with count `N = 0` the claim demands
zero filenames, but `listing[-0:]` is `listing[0:]`, so `get_recent_files`
returns ALL matching filenames instead. -/
theorem claim_C8_counterexample :
    get_recent_files (pys "content") [pys "2024-01-01-this-week-in-rust.md"] 0 =
      .ok [pys "content/2024-01-01-this-week-in-rust.md"] ∧
    recentFilesSpec (pys "content") [pys "2024-01-01-this-week-in-rust.md"] 0 = [] := by
  constructor
  · rfl
  · rfl

/-- Claim C8 as amended: for every count `N ≥ 1` and every listing with at
least one filename matching the date pattern, `get_recent_files` returns
exactly the `N` lexicographically-last matching filenames (all of them when
fewer than `N` match), in sorted order, each joined with the directory. -/
theorem claim_C8_amended (dir : PyStr) (listing : List PyStr) (n : Nat)
    (h1 : 1 ≤ n) (h2 : listing.filter matchesFilename ≠ []) :
    get_recent_files dir listing (n : Int) = .ok (recentFilesSpec dir listing n) := by
  have hlist : listing ≠ [] := by
    intro he
    rw [he] at h2
    exact h2 rfl
  unfold get_recent_files
  rw [if_neg hlist]
  dsimp only
  rw [if_neg h2]
  unfold recentFilesSpec pySliceFrom
  rw [if_pos (show -(n : Int) < 0 by omega)]
  simp only [neg_neg, Int.toNat_natCast]

/-- Witness for the amended C8: two matching files among three, count 1. -/
theorem claim_C8_amended_witness :
    get_recent_files (pys "content")
        [pys "2024-01-05-this-week-in-rust.md", pys "README.md",
         pys "2024-01-12-this-week-in-rust.md"] ((1 : Nat) : Int) =
      .ok (recentFilesSpec (pys "content")
        [pys "2024-01-05-this-week-in-rust.md", pys "README.md",
         pys "2024-01-12-this-week-in-rust.md"] 1) :=
  claim_C8_amended (pys "content")
    [pys "2024-01-05-this-week-in-rust.md", pys "README.md",
     pys "2024-01-12-this-week-in-rust.md"] 1 (by decide) (by decide)

/-- Claim C9: an empty directory listing, or one with no filename matching the
date pattern, makes the run fail before any file is inspected: `main` raises,
no warnings are recorded, and the process ends abnormally (no normal exit). -/
theorem claim_C9 (dir : PyStr) (listing : List PyStr) (count : Int)
    (env : PyStr → List PyStr)
    (h : listing = [] ∨ listing.filter matchesFilename = []) :
    ∃ e, mainRun dir listing count env = (.error e, []) ∧
      runProcess dir listing count env = .abnormal e := by
  have herr : ∃ e, get_recent_files dir listing count = .error e := by
    rcases h with h | h
    · subst h
      exact ⟨_, rfl⟩
    · unfold get_recent_files
      by_cases hl : listing = []
      · rw [if_pos hl]
        exact ⟨_, rfl⟩
      · rw [if_neg hl]
        dsimp only
        rw [if_pos h]
        exact ⟨_, rfl⟩
  obtain ⟨e, he⟩ := herr
  refine ⟨e, ?_, ?_⟩
  · unfold mainRun
    rw [he]
  · unfold runProcess mainRun
    rw [he]

/-- Witness for C9 on an empty listing. -/
theorem claim_C9_witness :
    ∃ e, mainRun (pys "content") [] 5 (fun _ => []) = (.error e, []) ∧
      runProcess (pys "content") [] 5 (fun _ => []) = .abnormal e :=
  claim_C9 (pys "content") [] 5 (fun _ => []) (Or.inl rfl)

/-- Claim C10: headings of level 5 or 6 are filtered out before the
strict-state pass, so they leave the strict flag — and hence the whole result
of `extract_links` — unchanged. -/
theorem claim_C10 (pre post : List Element) (lvl : Nat) (text : PyStr)
    (h : lvl = 5 ∨ lvl = 6) :
    extract_links (pre ++ Element.h lvl text :: post) =
      extract_links (pre ++ post) := by
  unfold extract_links
  rcases h with rfl | rfl
  · have hw : wantedTag (Element.h 5 text) = false := rfl
    rw [List.filter_append, List.filter_append, List.filter_cons, hw]
    rw [if_neg Bool.false_ne_true]
  · have hw : wantedTag (Element.h 6 text) = false := rfl
    rw [List.filter_append, List.filter_append, List.filter_cons, hw]
    rw [if_neg Bool.false_ne_true]

/-- Witness for C10: an h5 heading before a link changes nothing. -/
theorem claim_C10_witness :
    extract_links [Element.h 5 (pys "misc"), Element.a (pys "https://e/p")] =
      extract_links [Element.a (pys "https://e/p")] :=
  claim_C10 [] [Element.a (pys "https://e/p")] 5 (pys "misc") (Or.inl rfl)

end InspectLinks
